import Mathlib

/-!
MAX7219 LED display driver.

A shallow embedding of `MAX7219_LED_Display_Driver.cpp` / `.h`.

* Machine integers are natural numbers; every place where the C++ code narrows
  to `uint8_t` / `uint16_t` / `uint32_t` carries an explicit `% 2^w`.
* The driver object is the record `Driver`: the mutable byte `m_digitCoding`
  together with the log of the 16-bit words handed to `sendDataToRegister`
  (oldest first).  The three pin numbers are immutable and play no part in
  which words are produced.
* `sendDataToRegister` is embedded twice: at word level (`emit`, which appends
  the word to the log) and at pin level (`sendDataToRegister`, the sequence of
  `digitalWrite` calls for one word).
-/

namespace MAX7219

/-! ## Data model -/

/-- The driver object: the stored decode mask and the words sent so far. -/
structure Driver where
  m_digitCoding : Nat
  wire : List Nat
deriving DecidableEq, Repr

/-- Word-level view of `sendDataToRegister(dataToSend)`: the parameter is a
`uint16_t`, the word is appended to the log. -/
def emit (s : Driver) (dataToSend : Nat) : Driver :=
  { s with wire := s.wire ++ [dataToSend % 65536] }

/-- Address byte of a register word. -/
def addrOf (w : Nat) : Nat := w / 256

/-- Data byte of a register word. -/
def dataOf (w : Nat) : Nat := w % 256

/-- The word addresses one of the eight digit registers `0x1..0x8`. -/
def isDigitWord (w : Nat) : Bool := decide (1 ≤ addrOf w) && decide (addrOf w ≤ 8)

/-! ## Decode-mode bookkeeping -/

/-- Loop of `numToBitMask`: `for (uint8_t i = 0; i < 8; i++)`, with `fuel = 8 - i`
iterations left; `mask` is a `uint8_t`. -/
def numToBitMaskLoop : Nat → Nat → Nat → Nat
  | 0, mask, _ => mask
  | fuel + 1, mask, num =>
    if num = 0 then mask
    else numToBitMaskLoop fuel ((mask ||| (1 <<< (num % 10))) % 256) (num / 10)

/-- Source `uint8_t MAX7219::numToBitMask(const uint32_t& number)`. -/
def numToBitMask (number : Nat) : Nat :=
  numToBitMaskLoop 8 0 (number % 4294967296)

/-- Source `bool isBcdSet(const digit& digitToCheck)`: the digit is cast to `uint8_t`. -/
def isBcdSet (s : Driver) (digitToCheck : Nat) : Bool :=
  decide (s.m_digitCoding &&& numToBitMask (digitToCheck % 256) ≠ 0)

/-- Source `void MAX7219::setBcdDecodeMode(const uint8_t& decodeMode)`. -/
def setBcdDecodeMode (s : Driver) (decodeMode : Nat) : Driver :=
  let s1 := { s with m_digitCoding := (s.m_digitCoding ||| decodeMode) % 256 }
  emit s1 (0x0900 ||| s1.m_digitCoding)

/-- Source `void MAX7219::setRawDecodeMode(const uint8_t& decodeMode)`; `~decodeMode`
narrowed to eight bits is `decodeMode ^^^ 0xFF`. -/
def setRawDecodeMode (s : Driver) (decodeMode : Nat) : Driver :=
  let s1 := { s with m_digitCoding := (s.m_digitCoding &&& (decodeMode ^^^ 0xFF)) % 256 }
  emit s1 (0x0900 ||| s1.m_digitCoding)

/-! ## Digit send -/

/-- Source `void MAX7219::sendDigit(const digit& dType, const uint8_t& valueToSend,
const bool& withDot)`. -/
def sendDigit (s : Driver) (dType valueToSend : Nat) (withDot : Bool) : Driver :=
  let bcdValType : Bool := if valueToSend > 0x0F then false else true
  let val := valueToSend
  let s1 :=
    if bcdValType && !isBcdSet s dType then setBcdDecodeMode s (numToBitMask (dType % 256))
    else if !bcdValType && isBcdSet s dType then setRawDecodeMode s (numToBitMask (dType % 256))
    else s
  let val := if bcdValType && withDot then (val ||| 0x80) % 256 else val
  emit s1 ((dType <<< 8) ||| val)

/-! ## Chip control operations -/

/-- Source `void MAX7219::setIntensity(const uint8_t& intensity)`. -/
def setIntensity (s : Driver) (intensity : Nat) : Driver :=
  let level := 0
  let level := if intensity ≠ 0 then (intensity / 0x10) % 256 else level
  emit s (0x0A00 ||| level)

/-- Source `void MAX7219::setScanLimit(const uint8_t& scanLimit)`.  The local `limit`
is computed and never read.  `0x0B00 | (scanLimit - 1)` is evaluated in `int`
and narrowed to `uint16_t`; narrowing commutes with bitwise or, so the word is
`0x0B00 | ((scanLimit - 1) mod 2^16)`. -/
def setScanLimit (s : Driver) (scanLimit : Nat) : Driver :=
  let limit := scanLimit
  let _limit := if scanLimit > 8 then 8 else if scanLimit < 1 then 1 else limit
  emit s (0x0B00 ||| ((scanLimit + 65535) % 65536))

/-- Source `void setShutdown(const bool& shutdown)`. -/
def setShutdown (s : Driver) (shutdown : Bool) : Driver :=
  emit s (0x0C00 ||| (!shutdown).toNat)

/-- Source `void setDisplayTest(const bool& displayTest)`. -/
def setDisplayTest (s : Driver) (displayTest : Bool) : Driver :=
  emit s (0x0F00 ||| displayTest.toNat)

/-- Source `void sendNop(const uint8_t& nopData = 0)`. -/
def sendNop (s : Driver) (nopData : Nat) : Driver :=
  emit s nopData

/-- Source `void sendChar(const digit& dType, const chars& charToSend, const bool& addDot)`. -/
def sendChar (s : Driver) (dType charToSend : Nat) (addDot : Bool) : Driver :=
  sendDigit s dType (charToSend % 256) addDot

/-! ## Integer encoding -/

/-- Loop of `sendNumber(int32_t)`: `for (uint8_t i = 1; i < 9; i++, digitsSend++)`.
Returns the driver and the final `digitsSend`. -/
def sendNumberLoop (s : Driver) (i number digitsSend : Nat) : Driver × Nat :=
  if i < 9 then
    let s1 := sendDigit s i (number % 10) false
    let number1 := number / 10
    if number1 = 0 then (s1, digitsSend)
    else sendNumberLoop s1 (i + 1) number1 (digitsSend + 1)
  else (s, digitsSend)
termination_by 9 - i

/-- Source `void MAX7219::sendNumber(const int32_t& numberToSend)`; the negation is
taken in 32 bits and stored in a `uint32_t`. -/
def sendNumber (s : Driver) (numberToSend : Int) : Driver :=
  let number := ((if numberToSend < 0 then -numberToSend else numberToSend) % 4294967296).toNat
  let digitsSend := 1
  if number = 0 then sendDigit s 1 0 false
  else
    let r := sendNumberLoop s 1 number digitsSend
    if numberToSend < 0 ∧ r.2 < 8 then sendDigit r.1 (r.2 + 1) 0x0A false
    else r.1

/-! ## Fixed-precision decimal encoding -/

/-- First loop of `sendNumber(double, uint8_t)` (all decimal places zero):
`for (uint8_t i = 1; (i < (precision + 1) && i < 9); i++, digitsSend++)`. -/
def sendZerosLoop (s : Driver) (precision i digitsSend : Nat) : Driver × Nat :=
  if i < precision + 1 ∧ i < 9 then
    sendZerosLoop (sendDigit s i 0 false) precision (i + 1) (digitsSend + 1)
  else (s, digitsSend)
termination_by 9 - i

/-- Second loop of `sendNumber(double, uint8_t)` (non-zero decimals), with the
`break` once `decimals` has run out. -/
def sendDecimalsLoop (s : Driver) (precision i decimals digitsSend : Nat) : Driver × Nat :=
  if i < precision + 1 ∧ i < 9 then
    let s1 := sendDigit s i (decimals % 10) false
    let decimals1 := decimals / 10
    if decimals1 = 0 then (s1, digitsSend)
    else sendDecimalsLoop s1 precision (i + 1) decimals1 (digitsSend + 1)
  else (s, digitsSend)
termination_by 9 - i

/-- Third loop of `sendNumber(double, uint8_t)`:
`for (uint8_t i = precision + 2; i < 9; i++, digitsSend++)`. -/
def sendIntegerLoop (s : Driver) (i number digitsSend : Nat) : Driver × Nat :=
  if i < 9 then
    if number = 0 then (s, digitsSend)
    else sendIntegerLoop (sendDigit s i (number % 10) false) (i + 1) (number / 10) (digitsSend + 1)
  else (s, digitsSend)
termination_by 9 - i

/-- Source `void MAX7219::sendNumber(const double& numberToSend, const uint8_t& precision)`
from line 87 on.  The three values that lines 85-86 obtain from the `double`
by floating-point arithmetic are inputs: `negative` is `numberToSend < 0.0`,
`number` is the `uint32_t` truncation of `|numberToSend|`, and `decimals` is the
`uint32_t` truncation of `(|numberToSend| - number) * pow(10, precision)`. -/
def sendNumberDouble (s : Driver) (negative : Bool) (number decimals precision : Nat) : Driver :=
  let digitsSend := 1
  let r :=
    if decimals = 0 then sendZerosLoop s precision 1 digitsSend
    else sendDecimalsLoop s precision 1 decimals digitsSend
  if precision + 1 > 8 then r.1
  else
    let s2 :=
      if number = 0 then sendDigit r.1 (precision + 1) 0 true
      else sendDigit r.1 (precision + 1) (number % 10) true
    let digitsSend := (r.2 + 1) % 256
    let number := number / 10
    let r3 := sendIntegerLoop s2 ((precision + 2) % 256) number digitsSend
    if negative ∧ r3.2 < 8 then sendDigit r3.1 (r3.2 + 1) 0x0A false
    else r3.1

/-! ## Whole-display operations and lifecycle -/

/-- Loop of `clear`: `for (uint8_t i = 1; i < 9; i++) sendDigit(i, 0x0F)`. -/
def clearLoop (s : Driver) (i : Nat) : Driver :=
  if i < 9 then clearLoop (sendDigit s i 0x0F false) (i + 1) else s
termination_by 9 - i

/-- Source `void MAX7219::clear(void)`. -/
def clear (s : Driver) : Driver := clearLoop s 1

/-- Loop of `fillWithZeros`: `for (uint8_t i = 1; i < 9; i++) sendDigit(i, 0)`. -/
def fillWithZerosLoop (s : Driver) (i : Nat) : Driver :=
  if i < 9 then fillWithZerosLoop (sendDigit s i 0 false) (i + 1) else s
termination_by 9 - i

/-- Source `void MAX7219::fillWithZeros(void)`. -/
def fillWithZeros (s : Driver) : Driver := fillWithZerosLoop s 1

/-- The constructor `MAX7219::MAX7219(dOutPin, loadPin, clkPin, scanLimit, intensity)`
at word level; `m_digitCoding` starts from its default member initialiser `0xFF`. -/
def construct (scanLimit intensity : Nat) : Driver :=
  let s : Driver := { m_digitCoding := 0xFF, wire := [] }
  let s := setScanLimit s scanLimit
  let s := setIntensity s intensity
  let s := setBcdDecodeMode s 0xFF
  let s := clear s
  setShutdown s false

/-- The destructor `~MAX7219() { clear(); setShutdown(true); }`. -/
def destruct (s : Driver) : Driver :=
  setShutdown (clear s) true

/-! ## Pin-level serialisation -/

/-- The three output pins of the driver. -/
inductive Pin where
  | dataOut
  | load
  | clk
deriving DecidableEq, Repr

/-- One `digitalWrite(pin, level)` call; `true` is `HIGH`. -/
structure PinWrite where
  pin : Pin
  level : Bool
deriving DecidableEq, Repr

/-- Shift loop of `sendDataToRegister`:
`for (uint16_t i = 0x8000; i > 0; i >>= 1)`. -/
def shiftLoop (dataToSend i : Nat) : List PinWrite :=
  if i > 0 then
    [⟨Pin.clk, false⟩, ⟨Pin.dataOut, decide (dataToSend &&& i ≠ 0)⟩, ⟨Pin.clk, true⟩]
      ++ shiftLoop dataToSend (i >>> 1)
  else []
termination_by i
decreasing_by
  simp only [Nat.shiftRight_eq_div_pow, pow_one]
  omega

/-- Source `void MAX7219::sendDataToRegister(const uint16_t& dataToSend)` as the
sequence of `digitalWrite` calls it performs. -/
def sendDataToRegister (dataToSend : Nat) : List PinWrite :=
  [⟨Pin.load, false⟩, ⟨Pin.clk, false⟩, ⟨Pin.dataOut, false⟩]
    ++ shiftLoop (dataToSend % 65536) 0x8000
    ++ [⟨Pin.clk, false⟩, ⟨Pin.load, true⟩, ⟨Pin.dataOut, false⟩, ⟨Pin.load, false⟩]

/-! ## Reading a pin trace -/

/-- Levels of the data line at the rising edges of the clock line.  `clkLvl`
and `dataLvl` are the last levels written to the clock and data lines. -/
def risingEdgeSamples : List PinWrite → Bool → Bool → List Bool
  | [], _, _ => []
  | ⟨Pin.clk, true⟩ :: rest, clkLvl, dataLvl =>
    if clkLvl then risingEdgeSamples rest true dataLvl
    else dataLvl :: risingEdgeSamples rest true dataLvl
  | ⟨Pin.clk, false⟩ :: rest, _, dataLvl => risingEdgeSamples rest false dataLvl
  | ⟨Pin.dataOut, lvl⟩ :: rest, clkLvl, _ => risingEdgeSamples rest clkLvl lvl
  | ⟨Pin.load, _⟩ :: rest, clkLvl, dataLvl => risingEdgeSamples rest clkLvl dataLvl

/-- Value of a bit string read most significant bit first. -/
def bitsToNat (bits : List Bool) : Nat :=
  bits.foldl (fun acc b => 2 * acc + b.toNat) 0

/-! ## Observing a call -/

/-- Words sent between the state `s` before a call and the state `s'` after it. -/
def emitted (s s' : Driver) : List Nat := s'.wire.drop s.wire.length

/-- The digit-register words of a word sequence, in order. -/
def digitWords (ws : List Nat) : List Nat := ws.filter isDigitWord

/-- A run of `sendDigit` calls, each given as (position, value, withDot). -/
def sendDigits (s : Driver) : List (Nat × Nat × Bool) → Driver
  | [] => s
  | c :: rest => sendDigits (sendDigit s c.1 c.2.1 c.2.2) rest

/-- Digit word that `sendDigit` ends with for the call (position, value, withDot). -/
def callWord (c : Nat × Nat × Bool) : Nat :=
  256 * c.1 + (if c.2.1 ≤ 15 ∧ c.2.2 = true then 128 + c.2.1 else c.2.1)

/-- Value of a sequence of digit words read least significant first. -/
def decimalValue : List Nat → Nat
  | [] => 0
  | w :: ws => dataOf w + 10 * decimalValue ws

/-- Register address of a word as the chip reads it: bits 8..11. -/
def regAddr (w : Nat) : Nat := w / 256 % 16

/-- Data byte of the most recently sent word whose register address is `0x9`
(decode mode), if there is one. -/
def lastDecode (ws : List Nat) : Option Nat :=
  (ws.reverse.find? (fun w => decide (regAddr w = 9))).map dataOf

/-! ## States reachable through the public interface -/

/-- Driver states reachable from construction by the public operations, with
arguments in the range of their C++ types and digit positions in 1..8.  For
`sendNumber(double, uint8_t)` the sign, integer part and scaled fraction are
any values of their types. -/
inductive Reachable : Driver → Prop where
  | construct (scanLimit intensity : Nat) :
      scanLimit ≤ 255 → intensity ≤ 255 → Reachable (construct scanLimit intensity)
  | sendDigit (s : Driver) (dType valueToSend : Nat) (withDot : Bool) :
      Reachable s → 1 ≤ dType → dType ≤ 8 → valueToSend ≤ 255 →
      Reachable (sendDigit s dType valueToSend withDot)
  | sendChar (s : Driver) (dType charToSend : Nat) (addDot : Bool) :
      Reachable s → 1 ≤ dType → dType ≤ 8 → 0x0A ≤ charToSend → charToSend ≤ 0x0F →
      Reachable (sendChar s dType charToSend addDot)
  | sendNumber (s : Driver) (numberToSend : Int) :
      Reachable s → -2147483648 ≤ numberToSend → numberToSend < 2147483648 →
      Reachable (sendNumber s numberToSend)
  | sendNumberDouble (s : Driver) (negative : Bool) (number decimals precision : Nat) :
      Reachable s → number < 4294967296 → decimals < 4294967296 → precision ≤ 255 →
      Reachable (sendNumberDouble s negative number decimals precision)
  | setIntensity (s : Driver) (intensity : Nat) :
      Reachable s → intensity ≤ 255 → Reachable (setIntensity s intensity)
  | setScanLimit (s : Driver) (scanLimit : Nat) :
      Reachable s → scanLimit ≤ 255 → Reachable (setScanLimit s scanLimit)
  | setShutdown (s : Driver) (shutdown : Bool) :
      Reachable s → Reachable (setShutdown s shutdown)
  | setDisplayTest (s : Driver) (displayTest : Bool) :
      Reachable s → Reachable (setDisplayTest s displayTest)
  | sendNop (s : Driver) (nopData : Nat) :
      Reachable s → nopData ≤ 255 → Reachable (sendNop s nopData)
  | clear (s : Driver) : Reachable s → Reachable (clear s)
  | fillWithZeros (s : Driver) : Reachable s → Reachable (fillWithZeros s)

/-- What the reachable states have in common: bit 0 of the stored mask is set,
the mask is a byte, the last decode-mode word on the wire carries the stored
mask, and every decode-mode word on the wire has bit 0 of its data set. -/
def Mirrored (s : Driver) : Prop :=
  s.m_digitCoding % 2 = 1 ∧ s.m_digitCoding < 256
    ∧ lastDecode s.wire = some s.m_digitCoding
    ∧ ∀ w ∈ s.wire, regAddr w = 9 → dataOf w % 2 = 1

/-! ## Reading a pin trace: timing -/

/-- Every write to the data line comes at a moment when the last level written
to the clock line is low; `clkLvl` is that level, `none` before any clock write. -/
def dataOnlyWhileClkLow : List PinWrite → Option Bool → Bool
  | [], _ => true
  | ⟨Pin.clk, lvl⟩ :: rest, _ => dataOnlyWhileClkLow rest (some lvl)
  | ⟨Pin.dataOut, _⟩ :: rest, clkLvl =>
    (clkLvl == some false) && dataOnlyWhileClkLow rest clkLvl
  | ⟨Pin.load, _⟩ :: rest, clkLvl => dataOnlyWhileClkLow rest clkLvl

/-- Level last written to the load line at each rising edge of the clock line;
`none` while the load line has not been written. -/
def loadAtRisingEdges : List PinWrite → Bool → Option Bool → List (Option Bool)
  | [], _, _ => []
  | ⟨Pin.clk, true⟩ :: rest, clkLvl, loadLvl =>
    if clkLvl then loadAtRisingEdges rest true loadLvl
    else loadLvl :: loadAtRisingEdges rest true loadLvl
  | ⟨Pin.clk, false⟩ :: rest, _, loadLvl => loadAtRisingEdges rest false loadLvl
  | ⟨Pin.load, lvl⟩ :: rest, clkLvl, _ => loadAtRisingEdges rest clkLvl (some lvl)
  | ⟨Pin.dataOut, _⟩ :: rest, clkLvl, loadLvl => loadAtRisingEdges rest clkLvl loadLvl

/-- Last level written to a pin in a trace. -/
def lastLevel (p : Pin) (trace : List PinWrite) : Option Bool :=
  (trace.reverse.find? (fun e => decide (e.pin = p))).map (fun e => e.level)

/-- Number of times a pin is written with a given level in a trace. -/
def countWrites (p : Pin) (lvl : Bool) (trace : List PinWrite) : Nat :=
  trace.countP (fun e => decide (e.pin = p) && (e.level == lvl))

/-! ## Basic facts about words -/

theorem lor_byte (a x : Nat) (hx : x < 256) : (256 * a) ||| x = 256 * a + x := by
  have h := Nat.mul_add_lt_is_or (i := 8) (b := x) (by simpa using hx) a
  simpa using h.symm

theorem shl8_lor (p d : Nat) (hd : d < 256) : (p <<< 8) ||| d = 256 * p + d := by
  rw [Nat.shiftLeft_eq, show p * 2 ^ 8 = 256 * p by omega]
  exact lor_byte p d hd

theorem decodeWord_eq (x : Nat) (hx : x < 256) : 0x0900 ||| x = 2304 + x := by
  have := lor_byte 9 x hx
  simpa using this

theorem lor_dot (v : Nat) (hv : v ≤ 15) : v ||| 0x80 = 128 + v := by
  have h := Nat.mul_add_lt_is_or (i := 7) (b := v) (by norm_num; omega) 1
  rw [Nat.lor_comm]
  simpa using h.symm

theorem numToBitMask_digit (p : Nat) (h1 : 1 ≤ p) (h8 : p ≤ 8) :
    numToBitMask p = if p = 8 then 0 else 2 ^ p := by
  interval_cases p <;> rfl

theorem emitted_append (s s' : Driver) (ws : List Nat) (h : s'.wire = s.wire ++ ws) :
    emitted s s' = ws := by
  simp [emitted, h]


/-- Data byte that `sendDigit` puts on the wire for value `v` and flag `dot`. -/
theorem sendDigit_eq (s : Driver) (p v : Nat) (dot : Bool) (hp8 : p ≤ 8) (hv : v < 256) :
    sendDigit s p v dot =
      if v ≤ 15 then
        if isBcdSet s p = true then
          { s with wire := s.wire ++ [256 * p + (if dot = true then 128 + v else v)] }
        else
          { m_digitCoding := (s.m_digitCoding ||| numToBitMask p) % 256,
            wire := s.wire ++ [2304 + (s.m_digitCoding ||| numToBitMask p) % 256,
                               256 * p + (if dot = true then 128 + v else v)] }
      else
        if isBcdSet s p = true then
          { m_digitCoding := (s.m_digitCoding &&& (numToBitMask p ^^^ 0xFF)) % 256,
            wire := s.wire ++ [2304 + (s.m_digitCoding &&& (numToBitMask p ^^^ 0xFF)) % 256,
                               256 * p + v] }
        else
          { s with wire := s.wire ++ [256 * p + v] } := by
  have hp : p % 256 = p := Nat.mod_eq_of_lt (by omega)
  have hw : ∀ d, d < 256 → ((p <<< 8) ||| d) % 65536 = 256 * p + d := by
    intro d hd
    rw [shl8_lor p d hd]
    exact Nat.mod_eq_of_lt (by omega)
  have hdec : ∀ x, (0x0900 ||| (x % 256)) % 65536 = 2304 + x % 256 := by
    intro x
    rw [decodeWord_eq _ (Nat.mod_lt _ (by norm_num))]
    exact Nat.mod_eq_of_lt (by omega)
  by_cases hv15 : v ≤ 15
  · have hgt : ¬ v > 15 := by omega
    have hdot : (v ||| 0x80) % 256 = 128 + v := by
      rw [lor_dot v hv15]; exact Nat.mod_eq_of_lt (by omega)
    by_cases hb : isBcdSet s p = true <;> cases dot <;>
      simp [sendDigit, setBcdDecodeMode, setRawDecodeMode, emit, hv15, hgt, hb, hp, hw, hdec, hv, hdot,
        show 128 + v < 256 by omega]
  · have hgt : v > 15 := by omega
    by_cases hb : isBcdSet s p = true <;> cases dot <;>
      simp [sendDigit, setBcdDecodeMode, setRawDecodeMode, emit, hv15, hgt, hb, hp, hw, hdec, hv]


theorem isDigitWord_digit (p d : Nat) (h1 : 1 ≤ p) (h8 : p ≤ 8) (hd : d < 256) :
    isDigitWord (256 * p + d) = true := by
  have : (256 * p + d) / 256 = p := by omega
  simp [isDigitWord, addrOf, this, h1, h8]

theorem isDigitWord_decode (x : Nat) (hx : x < 256) : isDigitWord (2304 + x) = false := by
  have : (2304 + x) / 256 = 9 := by omega
  simp [isDigitWord, addrOf, this]

/-- C1: for every driver state, position `p` in 1..8, value `v` in 0..255 and dot
flag, the last word `sendDigit` emits is `(p << 8) | d` with `d = v | 0x80` when
`v ≤ 15` and the flag is set and `d = v` otherwise, and that word is the only
digit-register word of the call. -/
theorem sendDigit_last_word (s : Driver) (p v : Nat) (withDot : Bool)
    (h1 : 1 ≤ p) (h8 : p ≤ 8) (hv : v ≤ 255) :
    (emitted s (sendDigit s p v withDot)).getLast?
        = some ((p <<< 8) ||| (if v ≤ 15 ∧ withDot = true then v ||| 0x80 else v))
      ∧ digitWords (emitted s (sendDigit s p v withDot))
        = [(p <<< 8) ||| (if v ≤ 15 ∧ withDot = true then v ||| 0x80 else v)] := by
  have hv' : v < 256 := by omega
  rw [sendDigit_eq s p v withDot h8 hv']
  by_cases hv15 : v ≤ 15
  · have hd : (if v ≤ 15 ∧ withDot = true then v ||| 0x80 else v)
        = (if withDot = true then 128 + v else v) := by
      cases withDot <;> simp [hv15, lor_dot v hv15]
    have hd256 : (if withDot = true then 128 + v else v) < 256 := by
      split <;> omega
    rw [hd, shl8_lor p _ hd256]
    have hw := isDigitWord_digit p _ h1 h8 hd256
    by_cases hb : isBcdSet s p = true
    · simp [hv15, hb, emitted, digitWords, hw]
    · have hdc := isDigitWord_decode ((s.m_digitCoding ||| numToBitMask p) % 256)
        (Nat.mod_lt _ (by norm_num))
      simp [hv15, hb, emitted, digitWords, hw, hdc, List.filter_cons]
  · have hd : (if v ≤ 15 ∧ withDot = true then v ||| 0x80 else v) = v := by
      simp [hv15]
    rw [hd, shl8_lor p v hv']
    have hw := isDigitWord_digit p v h1 h8 hv'
    by_cases hb : isBcdSet s p = true
    · have hdc := isDigitWord_decode ((s.m_digitCoding &&& (numToBitMask p ^^^ 0xFF)) % 256)
        (Nat.mod_lt _ (by norm_num))
      simp [hv15, hb, emitted, digitWords, hw, hdc, List.filter_cons]
    · simp [hv15, hb, emitted, digitWords, hw]

/-- Witness for C1: digit 3, value 5 with dot, from the all-BCD state. -/
theorem sendDigit_last_word_witness :
    (emitted ⟨0xFF, []⟩ (sendDigit ⟨0xFF, []⟩ 3 5 true)).getLast?
        = some ((3 <<< 8) ||| (if 5 ≤ 15 ∧ true = true then 5 ||| 0x80 else 5))
      ∧ digitWords (emitted ⟨0xFF, []⟩ (sendDigit ⟨0xFF, []⟩ 3 5 true))
        = [(3 <<< 8) ||| (if 5 ≤ 15 ∧ true = true then 5 ||| 0x80 else 5)] :=
  sendDigit_last_word ⟨0xFF, []⟩ 3 5 true (by decide) (by decide) (by decide)


theorem dataOf_decode (x : Nat) (hx : x < 256) : dataOf (2304 + x) = x := by
  simp only [dataOf]; omega

theorem dataOf_digit (p d : Nat) (hd : d < 256) : dataOf (256 * p + d) = d := by
  simp only [dataOf]; omega

theorem numToBitMask_even (p : Nat) (h1 : 1 ≤ p) (h8 : p ≤ 8) : numToBitMask p % 2 = 0 := by
  interval_cases p <;> rfl

/-- One `sendDigit` call: the words it appends and what it does to bit 0 of the mask. -/
theorem sendDigit_step (s : Driver) (c : Nat × Nat × Bool)
    (h1 : 1 ≤ c.1) (h8 : c.1 ≤ 8) (hv : c.2.1 < 256) :
    ∃ pre, (sendDigit s c.1 c.2.1 c.2.2).wire = s.wire ++ (pre ++ [callWord c])
      ∧ (∀ w ∈ pre, isDigitWord w = false)
      ∧ (s.m_digitCoding % 2 = 1 →
          (sendDigit s c.1 c.2.1 c.2.2).m_digitCoding % 2 = 1 ∧ ∀ w ∈ pre, dataOf w % 2 = 1) := by
  obtain ⟨p, v, dot⟩ := c
  simp only at h1 h8 hv ⊢
  have hev := numToBitMask_even p h1 h8
  rw [sendDigit_eq s p v dot h8 hv]
  by_cases hv15 : v ≤ 15
  · by_cases hb : isBcdSet s p = true
    · refine ⟨[], ?_, ?_, ?_⟩ <;> simp [hv15, hb, callWord]
    · refine ⟨[2304 + (s.m_digitCoding ||| numToBitMask p) % 256], ?_, ?_, ?_⟩
      · simp [hv15, hb, callWord]
      · intro w hw
        simp only [List.mem_singleton] at hw
        rw [hw]; exact isDigitWord_decode _ (Nat.mod_lt _ (by norm_num))
      · intro hodd
        have : (s.m_digitCoding ||| numToBitMask p) % 256 % 2 = 1 := by
          rw [Nat.mod_mod_of_dvd _ (by norm_num)]
          simp [hodd]
        simp only [hv15, hb, if_true, if_false]
        refine ⟨this, ?_⟩
        intro w hw
        simp only [List.mem_singleton] at hw
        rw [hw, dataOf_decode _ (Nat.mod_lt _ (by norm_num))]; exact this
  · have hcw : callWord (p, v, dot) = 256 * p + v := by simp [callWord, hv15]
    by_cases hb : isBcdSet s p = true
    · refine ⟨[2304 + (s.m_digitCoding &&& (numToBitMask p ^^^ 0xFF)) % 256], ?_, ?_, ?_⟩
      · simp [hv15, hb, hcw]
      · intro w hw
        simp only [List.mem_singleton] at hw
        rw [hw]; exact isDigitWord_decode _ (Nat.mod_lt _ (by norm_num))
      · intro hodd
        have : (s.m_digitCoding &&& (numToBitMask p ^^^ 0xFF)) % 256 % 2 = 1 := by
          rw [Nat.mod_mod_of_dvd _ (by norm_num)]
          simp [hodd, hev]
          omega
        simp only [hv15, hb, if_true, if_false]
        refine ⟨this, ?_⟩
        intro w hw
        simp only [List.mem_singleton] at hw
        rw [hw, dataOf_decode _ (Nat.mod_lt _ (by norm_num))]; exact this
    · refine ⟨[], ?_, ?_, ?_⟩ <;> simp [hv15, hb, hcw]

theorem isDigitWord_callWord (c : Nat × Nat × Bool)
    (h1 : 1 ≤ c.1) (h8 : c.1 ≤ 8) (hv : c.2.1 < 256) : isDigitWord (callWord c) = true := by
  unfold callWord
  apply isDigitWord_digit _ _ h1 h8
  split <;> omega

/-- A run of valid `sendDigit` calls appends words whose digit-register words
are exactly the call words, ends with the last call word, and keeps bit 0 of
the mask set while sending only odd decode-mode data. -/
theorem sendDigits_spec (calls : List (Nat × Nat × Bool))
    (hvalid : ∀ c ∈ calls, 1 ≤ c.1 ∧ c.1 ≤ 8 ∧ c.2.1 < 256) (s : Driver) :
    ∃ ws, (sendDigits s calls).wire = s.wire ++ ws
      ∧ digitWords ws = calls.map callWord
      ∧ ws.getLast? = (calls.map callWord).getLast?
      ∧ (s.m_digitCoding % 2 = 1 →
          (sendDigits s calls).m_digitCoding % 2 = 1
            ∧ ∀ w ∈ ws, isDigitWord w = false → dataOf w % 2 = 1) := by
  induction calls generalizing s with
  | nil => exact ⟨[], by simp [sendDigits, digitWords]⟩
  | cons c rest ih =>
    obtain ⟨hc1, hc8, hcv⟩ := hvalid c (List.mem_cons_self _ _)
    obtain ⟨pre, hpre, hnd, hodd⟩ := sendDigit_step s c hc1 hc8 hcv
    obtain ⟨ws, hws, hdw, hlast, hodd2⟩ :=
      ih (fun c' hc' => hvalid c' (List.mem_cons_of_mem _ hc')) (sendDigit s c.1 c.2.1 c.2.2)
    have hcw := isDigitWord_callWord c hc1 hc8 hcv
    have hpre_f : List.filter isDigitWord pre = [] := by
      rw [List.filter_eq_nil_iff]
      intro w hw; simp [hnd w hw]
    refine ⟨pre ++ [callWord c] ++ ws, ?_, ?_, ?_, ?_⟩
    · simp [sendDigits, hws, hpre]
    · simp only [digitWords] at hdw
      simp [digitWords, List.filter_append, hpre_f, hcw, hdw]
    · cases rest with
      | nil =>
        have : ws = [] := by
          simpa [sendDigits] using hws
        simp [this]
      | cons c2 rest2 =>
        have hne : ws ≠ [] := by
          intro h; rw [h] at hdw; simp [digitWords] at hdw
        rw [List.getLast?_append_of_ne_nil _ hne, hlast]
        simp [List.getLast?_cons_cons]
    · intro hm
      obtain ⟨hm1, hpo⟩ := hodd hm
      obtain ⟨hm2, hwo⟩ := hodd2 hm1
      refine ⟨by simpa [sendDigits] using hm2, ?_⟩
      intro w hw hnd'
      simp only [List.mem_append, List.mem_singleton] at hw
      rcases hw with (hw | hw) | hw
      · exact hpo w hw
      · rw [hw, hcw] at hnd'; exact absurd hnd' (by simp)
      · exact hwo w hw hnd'


theorem sendDigits_append (s : Driver) (a b : List (Nat × Nat × Bool)) :
    sendDigits s (a ++ b) = sendDigits (sendDigits s a) b := by
  induction a generalizing s with
  | nil => rfl
  | cons c rest ih => simp [sendDigits, ih]

/-- Re-indexing of the digit calls after one loop iteration. -/
theorem sendNumberLoop_shift (i number k : Nat) :
    (List.range k).map (fun j => (i + 1 + j, number / 10 / 10 ^ j % 10, false))
      = (List.range k).map
          ((fun j => (i + j, number / 10 ^ j % 10, false)) ∘ Nat.succ) := by
  apply List.map_congr_left
  intro j _
  simp only [Function.comp, Nat.succ_eq_add_one]
  rw [Nat.div_div_eq_div_mul, pow_succ, Nat.mul_comm 10]
  have : i + 1 + j = i + (j + 1) := by omega
  rw [this]

/-- The calls `sendNumber` makes for the `k` low decimal digits of `number`,
starting at position `i`. -/
theorem sendNumberLoop_break (k : Nat) : ∀ (s : Driver) (i number digitsSend : Nat),
    i + k + 1 ≤ 9 → number < 10 ^ (k + 1) → (k = 0 ∨ 10 ^ k ≤ number) →
    sendNumberLoop s i number digitsSend
      = (sendDigits s ((List.range (k + 1)).map (fun j => (i + j, number / 10 ^ j % 10, false))),
         digitsSend + k) := by
  induction k with
  | zero =>
    intro s i number ds hi hlt _
    rw [sendNumberLoop]
    have h9 : i < 9 := by omega
    have h0 : number / 10 = 0 := by omega
    simp [h9, h0, sendDigits]
  | succ k ih =>
    intro s i number ds hi hlt hge
    have hge' : 10 ^ (k + 1) ≤ number := by
      rcases hge with h | h
      · omega
      · exact h
    have hpos : 0 < 10 ^ k := by positivity
    have hdiv_lt : number / 10 < 10 ^ (k + 1) := by
      rw [Nat.div_lt_iff_lt_mul (by norm_num)]
      calc number < 10 ^ (k + 1 + 1) := hlt
        _ = 10 ^ (k + 1) * 10 := by ring
    have hdiv_ge : 10 ^ k ≤ number / 10 := by
      rw [Nat.le_div_iff_mul_le (by norm_num)]
      calc 10 ^ k * 10 = 10 ^ (k + 1) := by ring
        _ ≤ number := hge'
    have hne : number / 10 ≠ 0 := by omega
    rw [sendNumberLoop]
    have h9 : i < 9 := by omega
    simp only [h9, if_true, hne, if_false]
    rw [ih _ (i + 1) (number / 10) (ds + 1) (by omega) hdiv_lt (Or.inr hdiv_ge)]
    rw [sendNumberLoop_shift i number (k + 1), List.range_succ_eq_map (k + 1)]
    rw [show ds + 1 + k = ds + (k + 1) by omega]
    simp only [List.map_cons, List.map_map, sendDigits, Nat.add_zero, pow_zero, Nat.div_one]

/-- When `number` has more digits than positions remain, the loop of
`sendNumber` runs to `i = 9` without a `break`. -/
theorem sendNumberLoop_full (r : Nat) : ∀ (s : Driver) (i number digitsSend : Nat),
    i + r = 9 → 10 ^ r ≤ number →
    sendNumberLoop s i number digitsSend
      = (sendDigits s ((List.range r).map (fun j => (i + j, number / 10 ^ j % 10, false))),
         digitsSend + r) := by
  induction r with
  | zero =>
    intro s i number ds hi _
    rw [sendNumberLoop]
    have h9 : ¬ i < 9 := by omega
    simp [h9, sendDigits]
  | succ r ih =>
    intro s i number ds hi hge
    have hpos : 0 < 10 ^ r := by positivity
    have hdiv_ge : 10 ^ r ≤ number / 10 := by
      rw [Nat.le_div_iff_mul_le (by norm_num)]
      calc 10 ^ r * 10 = 10 ^ (r + 1) := by ring
        _ ≤ number := hge
    have hne : number / 10 ≠ 0 := by omega
    rw [sendNumberLoop]
    have h9 : i < 9 := by omega
    simp only [h9, if_true, hne, if_false]
    rw [ih _ (i + 1) (number / 10) (ds + 1) (by omega) hdiv_ge]
    rw [sendNumberLoop_shift i number r, List.range_succ_eq_map r]
    rw [show ds + 1 + r = ds + (r + 1) by omega]
    simp only [List.map_cons, List.map_map, sendDigits, Nat.add_zero, pow_zero, Nat.div_one]

theorem sendNumber_number (n : Int) (hlo : -2147483648 ≤ n) (hhi : n < 2147483648) :
    ((if n < 0 then -n else n) % 4294967296).toNat = n.natAbs := by
  split <;> omega


theorem pow_le_lt_imp (k : Nat) (a : Nat) (h1 : 10 ^ k ≤ a) (h2 : a < 10 ^ 8) : k < 8 := by
  by_contra hcon
  have : 10 ^ 8 ≤ 10 ^ k := Nat.pow_le_pow_right (by norm_num) (by omega)
  omega

/-- The `sendDigit` calls made by `sendNumber(n)` when `|n|` has `k ≤ 8` digits. -/
theorem sendNumber_calls (s : Driver) (n : Int) (k : Nat)
    (hlo : -10 ^ 8 < n) (hhi : n < 10 ^ 8)
    (hk1 : 1 ≤ k) (hk : n.natAbs < 10 ^ k) (hk' : k = 1 ∨ 10 ^ (k - 1) ≤ n.natAbs) :
    sendNumber s n
      = sendDigits s ((List.range k).map (fun j => (1 + j, n.natAbs / 10 ^ j % 10, false))
          ++ (if n < 0 ∧ k < 8 then [(k + 1, 0x0A, false)] else [])) := by
  obtain ⟨k', rfl⟩ : ∃ k', k = k' + 1 := ⟨k - 1, by omega⟩
  simp only [Nat.add_sub_cancel] at hk'
  have hnat : n.natAbs < 10 ^ 8 := by omega
  have hk8 : k' < 8 := by
    rcases hk' with h | h
    · omega
    · exact pow_le_lt_imp k' _ h hnat
  have hnum := sendNumber_number n (by omega) (by omega)
  unfold sendNumber
  simp only [hnum]
  by_cases h0 : n.natAbs = 0
  · have hn : n = 0 := by omega
    have hk0 : k' = 0 := by
      rcases hk' with h | h
      · omega
      · have : 0 < 10 ^ k' := by positivity
        omega
    subst hn hk0
    simp [sendDigits]
  · simp only [h0, if_false]
    rw [sendNumberLoop_break k' s 1 n.natAbs 1 (by omega) hk
      (by rcases hk' with h | h
          · left; omega
          · right; exact h)]
    simp only [sendDigits_append]
    have e1 : 1 + k' < 8 ↔ k' + 1 < 8 := by omega
    by_cases hneg : n < 0 ∧ k' + 1 < 8
    · have hneg' : n < 0 ∧ 1 + k' < 8 := ⟨hneg.1, by omega⟩
      simp only [hneg, hneg', and_self, if_true, sendDigits]
      rw [show 1 + k' + 1 = k' + 1 + 1 by omega]
    · have hneg' : ¬ (n < 0 ∧ 1 + k' < 8) := by
        intro h; exact hneg ⟨h.1, by omega⟩
      simp only [hneg, hneg', if_false, sendDigits]

theorem decimalValue_digits (k : Nat) : ∀ (i a : Nat),
    decimalValue ((List.range k).map (fun j => 256 * (i + j) + a / 10 ^ j % 10)) = a % 10 ^ k := by
  induction k with
  | zero => intro i a; simp [decimalValue, Nat.mod_one]
  | succ k ih =>
    intro i a
    have hshift : (List.range k).map
          ((fun j => 256 * (i + j) + a / 10 ^ j % 10) ∘ Nat.succ)
        = (List.range k).map (fun j => 256 * (i + 1 + j) + a / 10 / 10 ^ j % 10) := by
      apply List.map_congr_left
      intro j _
      simp only [Function.comp, Nat.succ_eq_add_one]
      rw [Nat.div_div_eq_div_mul, pow_succ, Nat.mul_comm 10]
      have : i + 1 + j = i + (j + 1) := by omega
      rw [this]
    rw [List.range_succ_eq_map k]
    simp only [List.map_cons, List.map_map, decimalValue, Nat.add_zero, pow_zero, Nat.div_one]
    rw [hshift, ih (i + 1) (a / 10), dataOf_digit i (a % 10) (by omega)]
    rw [pow_succ, Nat.mul_comm (10 ^ k) 10, Nat.mod_mul]


/-- Digit-register words of `sendNumber(n)` for `|n|` of `k ≤ 8` digits: the `k`
digit words, then the dash word when `n < 0` and `k < 8`; the call ends with
the last of them. -/
theorem sendNumber_digitWords (s : Driver) (n : Int) (k : Nat)
    (hlo : -10 ^ 8 < n) (hhi : n < 10 ^ 8)
    (hk1 : 1 ≤ k) (hk : n.natAbs < 10 ^ k) (hk' : k = 1 ∨ 10 ^ (k - 1) ≤ n.natAbs) :
    digitWords (emitted s (sendNumber s n))
        = (List.range k).map (fun j => 256 * (1 + j) + n.natAbs / 10 ^ j % 10)
          ++ (if n < 0 ∧ k < 8 then [256 * (k + 1) + 0x0A] else [])
      ∧ (emitted s (sendNumber s n)).getLast?
        = ((List.range k).map (fun j => 256 * (1 + j) + n.natAbs / 10 ^ j % 10)
          ++ (if n < 0 ∧ k < 8 then [256 * (k + 1) + 0x0A] else [])).getLast? := by
  have hnat : n.natAbs < 10 ^ 8 := by omega
  have hk8 : k ≤ 8 := by
    rcases hk' with h | h
    · omega
    · have := pow_le_lt_imp (k - 1) _ h hnat
      omega
  rw [sendNumber_calls s n k hlo hhi hk1 hk hk']
  have hvalid : ∀ c ∈ (List.range k).map (fun j => (1 + j, n.natAbs / 10 ^ j % 10, false))
      ++ (if n < 0 ∧ k < 8 then [(k + 1, 0x0A, false)] else []),
      1 ≤ c.1 ∧ c.1 ≤ 8 ∧ c.2.1 < 256 := by
    intro c hc
    rw [List.mem_append] at hc
    rcases hc with hc | hc
    · rw [List.mem_map] at hc
      obtain ⟨j, hj, rfl⟩ := hc
      rw [List.mem_range] at hj
      simp only
      omega
    · split at hc
      · simp only [List.mem_singleton] at hc
        subst hc
        simp only
        omega
      · simp at hc
  obtain ⟨ws, hws, hdw, hlast, -⟩ := sendDigits_spec _ hvalid s
  rw [emitted_append s _ ws hws, hdw, hlast]
  have hmap : ((List.range k).map (fun j => (1 + j, n.natAbs / 10 ^ j % 10, false))
      ++ (if n < 0 ∧ k < 8 then [(k + 1, 0x0A, false)] else [])).map callWord
      = (List.range k).map (fun j => 256 * (1 + j) + n.natAbs / 10 ^ j % 10)
          ++ (if n < 0 ∧ k < 8 then [256 * (k + 1) + 0x0A] else []) := by
    rw [List.map_append, List.map_map]
    congr 1
    · apply List.map_congr_left
      intro j _
      simp [callWord]
    · split <;> simp [callWord]
  rw [hmap]
  exact ⟨rfl, rfl⟩

/-- C2: for every int32 `n` with `|n| < 10^8` and `k` the number of decimal
digits of `|n|` (`k = 1` for `n = 0`), the digit-register words of
`sendNumber(n)` that carry a decimal digit (data `≤ 9`) are exactly `k` words, at
positions `1, .., k` in that order, the one at position `i` carrying
`|n| / 10^(i-1) mod 10` and no dot bit; read least significant first they give
back `|n|`; and `sendNumber(0)` sends the digit word `0x0100` alone, no dash
(and no decode-mode word when digit 1 is stored as BCD). -/
theorem sendNumber_decimal_digits (s : Driver) (n : Int) (k : Nat)
    (hlo : -10 ^ 8 < n) (hhi : n < 10 ^ 8)
    (hk1 : 1 ≤ k) (hk : n.natAbs < 10 ^ k) (hk' : k = 1 ∨ 10 ^ (k - 1) ≤ n.natAbs) :
    (digitWords (emitted s (sendNumber s n))).filter (fun w => decide (dataOf w ≤ 9))
        = (List.range k).map (fun j => 256 * (1 + j) + n.natAbs / 10 ^ j % 10)
      ∧ decimalValue
          ((digitWords (emitted s (sendNumber s n))).filter (fun w => decide (dataOf w ≤ 9)))
        = n.natAbs
      ∧ (n = 0 → digitWords (emitted s (sendNumber s n)) = [0x0100]
          ∧ (isBcdSet s 1 = true → emitted s (sendNumber s n) = [0x0100])) := by
  obtain ⟨hdw, -⟩ := sendNumber_digitWords s n k hlo hhi hk1 hk hk'
  have hfilter : (digitWords (emitted s (sendNumber s n))).filter (fun w => decide (dataOf w ≤ 9))
      = (List.range k).map (fun j => 256 * (1 + j) + n.natAbs / 10 ^ j % 10) := by
    rw [hdw, List.filter_append]
    have h1 : ((List.range k).map (fun j => 256 * (1 + j) + n.natAbs / 10 ^ j % 10)).filter
        (fun w => decide (dataOf w ≤ 9))
        = (List.range k).map (fun j => 256 * (1 + j) + n.natAbs / 10 ^ j % 10) := by
      rw [List.filter_eq_self]
      intro w hw
      rw [List.mem_map] at hw
      obtain ⟨j, -, rfl⟩ := hw
      rw [dataOf_digit _ _ (by omega)]
      simp only [decide_eq_true_eq]
      omega
    have h2 : (if n < 0 ∧ k < 8 then [256 * (k + 1) + 0x0A] else []).filter
        (fun w => decide (dataOf w ≤ 9)) = [] := by
      split
      · simp [dataOf_digit (k + 1) 10 (by norm_num)]
      · rfl
    rw [h1, h2, List.append_nil]
  refine ⟨hfilter, ?_, ?_⟩
  · rw [hfilter, decimalValue_digits k 1 n.natAbs]
    exact Nat.mod_eq_of_lt hk
  · intro hn
    subst hn
    refine ⟨?_, ?_⟩
    · have hk0 : k = 1 := by
        rcases hk' with h | h
        · exact h
        · have : 0 < 10 ^ (k - 1) := by positivity
          simp at h
      subst hk0
      rw [hdw]
      simp [List.range_succ]
    · intro hb
      have : sendNumber s 0 = sendDigit s 1 0 false := by simp [sendNumber]
      rw [this, sendDigit_eq s 1 0 false (by norm_num) (by norm_num)]
      simp [hb, emitted]

/-- Witness for C2: `n = -45` has two digits. -/
theorem sendNumber_decimal_digits_witness :
    (digitWords (emitted ⟨0xFF, []⟩ (sendNumber ⟨0xFF, []⟩ (-45)))).filter
          (fun w => decide (dataOf w ≤ 9))
        = (List.range 2).map (fun j => 256 * (1 + j) + (-45 : Int).natAbs / 10 ^ j % 10)
      ∧ decimalValue
          ((digitWords (emitted ⟨0xFF, []⟩ (sendNumber ⟨0xFF, []⟩ (-45)))).filter
            (fun w => decide (dataOf w ≤ 9)))
        = (-45 : Int).natAbs
      ∧ ((-45 : Int) = 0 → digitWords (emitted ⟨0xFF, []⟩ (sendNumber ⟨0xFF, []⟩ (-45))) = [0x0100]
          ∧ (isBcdSet ⟨0xFF, []⟩ 1 = true
              → emitted ⟨0xFF, []⟩ (sendNumber ⟨0xFF, []⟩ (-45)) = [0x0100])) :=
  sendNumber_decimal_digits ⟨0xFF, []⟩ (-45) 2 (by decide) (by decide) (by decide) (by decide)
    (by decide)


theorem exists_digit_count (a : Nat) (ha : a < 10 ^ 8) :
    ∃ k, 1 ≤ k ∧ a < 10 ^ k ∧ (k = 1 ∨ 10 ^ (k - 1) ≤ a) := by
  by_cases h1 : a < 10
  · exact ⟨1, by norm_num, by norm_num; omega, Or.inl rfl⟩
  by_cases h2 : a < 100
  · exact ⟨2, by norm_num, by norm_num; omega, Or.inr (by norm_num; omega)⟩
  by_cases h3 : a < 1000
  · exact ⟨3, by norm_num, by norm_num; omega, Or.inr (by norm_num; omega)⟩
  by_cases h4 : a < 10000
  · exact ⟨4, by norm_num, by norm_num; omega, Or.inr (by norm_num; omega)⟩
  by_cases h5 : a < 100000
  · exact ⟨5, by norm_num, by norm_num; omega, Or.inr (by norm_num; omega)⟩
  by_cases h6 : a < 1000000
  · exact ⟨6, by norm_num, by norm_num; omega, Or.inr (by norm_num; omega)⟩
  by_cases h7 : a < 10000000
  · exact ⟨7, by norm_num, by norm_num; omega, Or.inr (by norm_num; omega)⟩
  · exact ⟨8, by norm_num, ha, Or.inr (by norm_num; omega)⟩

/-- For `n ≥ 0`, `sendNumber(n)` is a run of `sendDigit` calls with decimal
digits as values, at positions 1..8, without dot. -/
theorem sendNumber_nonneg_calls (s : Driver) (n : Int) (h0 : 0 ≤ n) (hhi : n < 2147483648) :
    ∃ calls, sendNumber s n = sendDigits s calls
      ∧ ∀ c ∈ calls, 1 ≤ c.1 ∧ c.1 ≤ 8 ∧ c.2.1 ≤ 9 ∧ c.2.2 = false := by
  have hmem : ∀ (a r : Nat), r ≤ 8 →
      ∀ c ∈ (List.range r).map (fun j => (1 + j, a / 10 ^ j % 10, false)),
        1 ≤ c.1 ∧ c.1 ≤ 8 ∧ c.2.1 ≤ 9 ∧ c.2.2 = false := by
    intro a r hr c hc
    rw [List.mem_map] at hc
    obtain ⟨j, hj, rfl⟩ := hc
    rw [List.mem_range] at hj
    exact ⟨by simp only; omega, by simp only; omega, by simp only; omega, rfl⟩
  by_cases hsmall : n < 10 ^ 8
  · obtain ⟨k, hk1, hk, hk'⟩ := exists_digit_count n.natAbs (by omega)
    have hk8 : k ≤ 8 := by
      rcases hk' with h | h
      · omega
      · have := pow_le_lt_imp (k - 1) _ h (by omega : n.natAbs < 10 ^ 8)
        omega
    refine ⟨_, sendNumber_calls s n k (by omega) hsmall hk1 hk hk', ?_⟩
    have hnn : ¬ (n < 0 ∧ k < 8) := by omega
    simp only [hnn, if_false, List.append_nil]
    exact hmem n.natAbs k hk8
  · have hnum := sendNumber_number n (by omega) hhi
    have hge : 10 ^ 8 ≤ n.natAbs := by omega
    have hne : n.natAbs ≠ 0 := by omega
    refine ⟨(List.range 8).map (fun j => (1 + j, n.natAbs / 10 ^ j % 10, false)), ?_,
      hmem n.natAbs 8 (le_refl _)⟩
    unfold sendNumber
    simp only [hnum, hne, if_false]
    rw [sendNumberLoop_full 8 s 1 n.natAbs 1 (by norm_num) hge]
    have : ¬ (n < 0 ∧ 1 + 8 < 8) := by omega
    simp only [this, if_false]

/-- C3: for an int32 `n < 0` whose absolute value has `k ≤ 7` decimal digits,
`sendNumber(n)` ends with the dash word (data `0x0A`) at position `k+1`, which
comes directly after the `k` digit words among the digit-register words; for
`n ≥ 0` no digit-register word carries `0x0A`, and from a state with bit 0 of
the decode mask set (as in every state after construction) no word at all has
data `0x0A`.  `sendNumber(-45)` sends `5` at position 1, `4` at position 2 and
the dash at position 3. -/
theorem sendNumber_dash (s : Driver) (n : Int) (k : Nat)
    (hlo : -2147483648 ≤ n) (hhi : n < 2147483648) :
    (n < 0 → 1 ≤ k → k ≤ 7 → n.natAbs < 10 ^ k → (k = 1 ∨ 10 ^ (k - 1) ≤ n.natAbs) →
        (emitted s (sendNumber s n)).getLast? = some (((k + 1) <<< 8) ||| 0x0A)
        ∧ digitWords (emitted s (sendNumber s n))
            = (List.range k).map (fun j => 256 * (1 + j) + n.natAbs / 10 ^ j % 10)
                ++ [((k + 1) <<< 8) ||| 0x0A])
      ∧ (0 ≤ n →
          (∀ w ∈ digitWords (emitted s (sendNumber s n)), dataOf w ≠ 0x0A)
          ∧ (s.m_digitCoding % 2 = 1 → ∀ w ∈ emitted s (sendNumber s n), dataOf w ≠ 0x0A))
      ∧ emitted ⟨0xFF, []⟩ (sendNumber ⟨0xFF, []⟩ (-45)) = [0x0105, 0x0204, 0x030A] := by
  refine ⟨?_, ?_, ?_⟩
  · intro hneg hk1 hk7 hk hk'
    have hpow : n.natAbs < 10 ^ 8 := by
      calc n.natAbs < 10 ^ k := hk
        _ ≤ 10 ^ 8 := Nat.pow_le_pow_right (by norm_num) (by omega)
    obtain ⟨hdw, hlast⟩ := sendNumber_digitWords s n k (by omega) (by omega) hk1 hk hk'
    have hc : n < 0 ∧ k < 8 := ⟨hneg, by omega⟩
    simp only [hc, and_self, if_true] at hdw hlast
    rw [shl8_lor (k + 1) 0x0A (by norm_num)]
    refine ⟨?_, hdw⟩
    rw [hlast, List.getLast?_append_of_ne_nil _ (by simp)]
    rfl
  · intro h0
    obtain ⟨calls, hcalls, hc⟩ := sendNumber_nonneg_calls s n h0 hhi
    obtain ⟨ws, hws, hdw, -, hodd⟩ := sendDigits_spec calls
      (fun c hcm => by have := hc c hcm; omega) s
    rw [hcalls, emitted_append s _ ws hws]
    have hdig : ∀ w ∈ digitWords ws, dataOf w ≠ 0x0A := by
      intro w hw
      rw [hdw, List.mem_map] at hw
      obtain ⟨c, hcm, rfl⟩ := hw
      obtain ⟨-, -, h9, hdot⟩ := hc c hcm
      simp only [callWord, hdot, and_false, if_false, Bool.false_eq_true]
      rw [dataOf_digit _ _ (by omega)]
      omega
    refine ⟨hdig, ?_⟩
    intro hm w hw
    by_cases hdw' : isDigitWord w = true
    · exact hdig w (by simp [digitWords, hw, hdw'])
    · have := (hodd hm).2 w hw (by simpa using hdw')
      omega
  · simp [emitted, sendNumber, sendNumberLoop, sendDigit, isBcdSet, numToBitMask,
      numToBitMaskLoop, emit, setBcdDecodeMode, setRawDecodeMode]

/-- Witness for C3: `n = -45` (two digits, dash at position 3) and `n = 7`. -/
theorem sendNumber_dash_witness :
    ((emitted ⟨0xFF, []⟩ (sendNumber ⟨0xFF, []⟩ (-45))).getLast? = some (((2 + 1) <<< 8) ||| 0x0A)
        ∧ digitWords (emitted ⟨0xFF, []⟩ (sendNumber ⟨0xFF, []⟩ (-45)))
            = (List.range 2).map (fun j => 256 * (1 + j) + (-45 : Int).natAbs / 10 ^ j % 10)
                ++ [((2 + 1) <<< 8) ||| 0x0A])
      ∧ ((∀ w ∈ digitWords (emitted ⟨0xFF, []⟩ (sendNumber ⟨0xFF, []⟩ 7)), dataOf w ≠ 0x0A)
          ∧ ((⟨0xFF, []⟩ : Driver).m_digitCoding % 2 = 1
              → ∀ w ∈ emitted ⟨0xFF, []⟩ (sendNumber ⟨0xFF, []⟩ 7), dataOf w ≠ 0x0A)) :=
  ⟨(sendNumber_dash ⟨0xFF, []⟩ (-45) 2 (by decide) (by decide)).1
      (by decide) (by decide) (by decide) (by decide) (by decide),
   (sendNumber_dash ⟨0xFF, []⟩ 7 1 (by decide) (by decide)).2.1 (by decide)⟩


/-- C4 (evaluation at the failing input): from the all-BCD state `0xFF`,
`sendDigit(8, 5, false)` sends two words, the decode-mode word `0x09FF` and then
the digit word `0x0805`, because `numToBitMask(8)` is `0` and `isBcdSet(8)` is
therefore always false; at positions 1 and 7 the same call sends one word. -/
theorem sendDigit_position8_two_words :
    emitted ⟨0xFF, []⟩ (sendDigit ⟨0xFF, []⟩ 8 5 false) = [0x09FF, 0x0805]
      ∧ numToBitMask 8 = 0
      ∧ isBcdSet ⟨0xFF, []⟩ 8 = false
      ∧ emitted ⟨0xFF, []⟩ (sendDigit ⟨0xFF, []⟩ 1 5 false) = [0x0105]
      ∧ emitted ⟨0xFF, []⟩ (sendDigit ⟨0xFF, []⟩ 7 5 false) = [0x0705] := by
  decide

/-- C5 (evaluation at the failing inputs): from the all-BCD state `0xFF`,
`sendDigit(1, 16)` sends the decode-mode word `0x09FD` (bit 1 cleared, bit 0
still set) and leaves the stored mask at `0xFD`, and `sendDigit(8, 16)` sends no
decode-mode word at all and leaves the mask at `0xFF`. -/
theorem sendDigit_raw_clears_wrong_bit :
    emitted ⟨0xFF, []⟩ (sendDigit ⟨0xFF, []⟩ 1 16 false) = [0x09FD, 0x0110]
      ∧ (sendDigit ⟨0xFF, []⟩ 1 16 false).m_digitCoding = 0xFD
      ∧ numToBitMask 1 = 2
      ∧ emitted ⟨0xFF, []⟩ (sendDigit ⟨0xFF, []⟩ 8 16 false) = [0x0810]
      ∧ (sendDigit ⟨0xFF, []⟩ 8 16 false).m_digitCoding = 0xFF := by
  decide

/-- C6 (evaluation at the failing inputs): `setScanLimit(0)` transmits `0xFFFF`
and `setScanLimit(20)` transmits `0x0B13`; the clamped `limit` is not used. -/
theorem setScanLimit_unclamped :
    emitted ⟨0xFF, []⟩ (setScanLimit ⟨0xFF, []⟩ 0) = [0xFFFF]
      ∧ emitted ⟨0xFF, []⟩ (setScanLimit ⟨0xFF, []⟩ 20) = [0x0B13]
      ∧ emitted ⟨0xFF, []⟩ (setScanLimit ⟨0xFF, []⟩ 8) = [0x0B07]
      ∧ emitted ⟨0xFF, []⟩ (setScanLimit ⟨0xFF, []⟩ 1) = [0x0B00] := by
  decide


theorem and_two_pow_ne_zero (w j : Nat) :
    decide (w &&& 2 ^ j ≠ 0) = decide (w / 2 ^ j % 2 = 1) := by
  rw [Nat.and_two_pow, ← Nat.testBit_to_div_mod]
  have hpos : 0 < 2 ^ j := by positivity
  cases h : w.testBit j
  · simp
  · simp only [Bool.toNat_true, one_mul, decide_eq_true_eq]
    omega

theorem shiftLoop_zero (w : Nat) : shiftLoop w 0 = [] := by
  rw [shiftLoop]; simp

theorem shiftLoop_pos (w i : Nat) (hi : i > 0) :
    shiftLoop w i =
      [⟨Pin.clk, false⟩, ⟨Pin.dataOut, decide (w &&& i ≠ 0)⟩, ⟨Pin.clk, true⟩]
        ++ shiftLoop w (i >>> 1) := by
  rw [shiftLoop]; simp [hi]

/-- The shift loop started at mask `2^n` makes `n + 1` iterations, presenting
bits `n, n-1, .., 0` of the word. -/
theorem shiftLoop_two_pow (w : Nat) (n : Nat) :
    shiftLoop w (2 ^ n) =
      (List.range (n + 1)).flatMap (fun j =>
        [⟨Pin.clk, false⟩, ⟨Pin.dataOut, decide (w / 2 ^ (n - j) % 2 = 1)⟩, ⟨Pin.clk, true⟩]) := by
  induction n with
  | zero =>
    rw [shiftLoop_pos w _ (by norm_num)]
    have : (2 ^ 0) >>> 1 = 0 := by decide
    rw [this, shiftLoop_zero, and_two_pow_ne_zero]
    simp [List.range_succ]
  | succ n ih =>
    rw [shiftLoop_pos w _ (by positivity)]
    have : (2 ^ (n + 1)) >>> 1 = 2 ^ n := by
      rw [Nat.shiftRight_eq_div_pow, pow_succ]; simp
    rw [this, ih, and_two_pow_ne_zero, List.range_succ_eq_map (n + 1)]
    simp only [List.flatMap_cons, List.flatMap_map, Nat.sub_zero, Function.comp,
      Nat.succ_eq_add_one, Nat.add_sub_add_right]

theorem risingEdgeSamples_bit (b : Bool) (rest : List PinWrite) (c d : Bool) :
    risingEdgeSamples (⟨Pin.clk, false⟩ :: ⟨Pin.dataOut, b⟩ :: ⟨Pin.clk, true⟩ :: rest) c d
      = b :: risingEdgeSamples rest true b := by
  simp [risingEdgeSamples]

theorem risingEdgeSamples_bits (bits : List Bool) (rest : List PinWrite) (c d : Bool) :
    risingEdgeSamples
        (bits.flatMap (fun b => [⟨Pin.clk, false⟩, ⟨Pin.dataOut, b⟩, ⟨Pin.clk, true⟩]) ++ rest) c d
      = bits ++ risingEdgeSamples rest (if bits = [] then c else true)
          (bits.getLast?.getD d) := by
  induction bits generalizing c d with
  | nil => simp
  | cons b bs ih =>
    rw [List.flatMap_cons]
    simp only [List.cons_append, List.nil_append, List.append_assoc]
    rw [risingEdgeSamples_bit, ih]
    cases bs with
    | nil => simp
    | cons b2 bs2 =>
      rw [List.getLast?_cons_cons, List.getLast?_eq_getLast _ (List.cons_ne_nil b2 bs2)]
      simp


theorem toNat_decide_mod_two (x : Nat) : (decide (x % 2 = 1)).toNat = x % 2 := by
  rcases Nat.mod_two_eq_zero_or_one x with h | h <;> simp [h]

/-- Sampling the data line at the rising clock edges of one transmitted word. -/
theorem risingEdgeSamples_sendDataToRegister (w : Nat) (hw : w < 65536) (c d : Bool) :
    risingEdgeSamples (sendDataToRegister w) c d
      = (List.range 16).map (fun j => decide (w / 2 ^ (15 - j) % 2 = 1)) := by
  have hmod : w % 65536 = w := Nat.mod_eq_of_lt hw
  have hloop := shiftLoop_two_pow w 15
  have hflat : (List.range (15 + 1)).flatMap (fun j =>
        ([⟨Pin.clk, false⟩, ⟨Pin.dataOut, decide (w / 2 ^ (15 - j) % 2 = 1)⟩, ⟨Pin.clk, true⟩]
          : List PinWrite))
      = ((List.range 16).map (fun j => decide (w / 2 ^ (15 - j) % 2 = 1))).flatMap
          (fun b => [⟨Pin.clk, false⟩, ⟨Pin.dataOut, b⟩, ⟨Pin.clk, true⟩]) := by
    rw [List.flatMap_map]
  have hpre : ∀ (rest : List PinWrite), risingEdgeSamples
      (⟨Pin.load, false⟩ :: ⟨Pin.clk, false⟩ :: ⟨Pin.dataOut, false⟩ :: rest) c d
      = risingEdgeSamples rest false false := by
    intro rest; simp [risingEdgeSamples]
  have hpost : ∀ (c' d' : Bool), risingEdgeSamples
      [⟨Pin.clk, false⟩, ⟨Pin.load, true⟩, ⟨Pin.dataOut, false⟩, ⟨Pin.load, false⟩] c' d' = [] := by
    intro c' d'; simp [risingEdgeSamples]
  unfold sendDataToRegister
  rw [hmod, show (0x8000 : Nat) = 2 ^ 15 by norm_num, hloop, hflat]
  simp only [List.cons_append, List.nil_append, List.append_assoc]
  rw [hpre, risingEdgeSamples_bits, hpost, List.append_nil]

theorem bitsToNat_fold (n : Nat) : ∀ (w a : Nat),
    ((List.range (n + 1)).map (fun j => decide (w / 2 ^ (n - j) % 2 = 1))).foldl
        (fun acc b => 2 * acc + b.toNat) a
      = a * 2 ^ (n + 1) + w % 2 ^ (n + 1) := by
  induction n with
  | zero =>
    intro w a
    simp [List.range_succ, toNat_decide_mod_two]
    omega
  | succ n ih =>
    intro w a
    have hshift : (List.range (n + 1)).map (fun j => decide (w / 2 ^ (n + 1 - j) % 2 = 1))
        = (List.range (n + 1)).map (fun j => decide (w / 2 / 2 ^ (n - j) % 2 = 1)) := by
      apply List.map_congr_left
      intro j hj
      rw [List.mem_range] at hj
      rw [Nat.div_div_eq_div_mul, show n + 1 - j = (n - j) + 1 by omega, pow_succ,
        Nat.mul_comm (2 ^ (n - j)) 2]
    rw [List.range_succ (n := n + 1), List.map_append, List.foldl_append, hshift, ih (w / 2) a]
    simp only [List.map_cons, List.map_nil, List.foldl_cons, List.foldl_nil, Nat.sub_self,
      pow_zero, Nat.div_one, toNat_decide_mod_two]
    have hm : w % 2 ^ (n + 1 + 1) = w % 2 + 2 * (w / 2 % 2 ^ (n + 1)) := by
      rw [pow_succ, Nat.mul_comm (2 ^ (n + 1)) 2, Nat.mod_mul]
    rw [hm, pow_succ (2 : Nat) (n + 1)]
    ring

theorem bitsToNat_bits (w : Nat) (hw : w < 65536) :
    bitsToNat ((List.range 16).map (fun j => decide (w / 2 ^ (15 - j) % 2 = 1))) = w := by
  have h := bitsToNat_fold 15 w 0
  simp only [bitsToNat]
  rw [h]
  norm_num
  exact hw

/-- C7: for every 16-bit word `w`, the pin trace of `sendDataToRegister(w)` has
exactly 16 rising clock edges, the data line at the `j`-th of them carries bit
`15 - j` of `w`, reading these levels most significant bit first gives back `w`,
and two words with the same trace are equal. -/
theorem sendDataToRegister_msb_first (w : Nat) (hw : w < 65536) (c d : Bool) :
    (risingEdgeSamples (sendDataToRegister w) c d).length = 16
      ∧ (∀ j, j < 16 → (risingEdgeSamples (sendDataToRegister w) c d)[j]?
            = some (decide (w / 2 ^ (15 - j) % 2 = 1)))
      ∧ bitsToNat (risingEdgeSamples (sendDataToRegister w) c d) = w
      ∧ (∀ w', w' < 65536 → sendDataToRegister w' = sendDataToRegister w → w' = w) := by
  have hs := risingEdgeSamples_sendDataToRegister w hw
  refine ⟨by rw [hs]; simp, ?_, by rw [hs]; exact bitsToNat_bits w hw, ?_⟩
  · intro j hj
    rw [hs]
    simp [List.getElem?_map, List.getElem?_range hj]
  · intro w' hw' heq
    have h1 := bitsToNat_bits w' hw'
    rw [← risingEdgeSamples_sendDataToRegister w' hw' false false, heq,
      risingEdgeSamples_sendDataToRegister w hw false false, bitsToNat_bits w hw] at h1
    exact h1.symm

/-- Witness for C7: the word `0x0A0F`. -/
theorem sendDataToRegister_msb_first_witness :
    (risingEdgeSamples (sendDataToRegister 0x0A0F) false false).length = 16
      ∧ (∀ j, j < 16 → (risingEdgeSamples (sendDataToRegister 0x0A0F) false false)[j]?
            = some (decide (0x0A0F / 2 ^ (15 - j) % 2 = 1)))
      ∧ bitsToNat (risingEdgeSamples (sendDataToRegister 0x0A0F) false false) = 0x0A0F
      ∧ (∀ w', w' < 65536 → sendDataToRegister w' = sendDataToRegister 0x0A0F → w' = 0x0A0F) :=
  sendDataToRegister_msb_first 0x0A0F (by decide) false false


theorem setIntensity_wire (s : Driver) (x : Nat) (hx : x ≤ 255) :
    setIntensity s x = { s with wire := s.wire ++ [2560 + x / 16] } := by
  have h16 : x / 16 < 256 := by omega
  have hl : 0x0A00 ||| (x / 16) = 2560 + x / 16 := by
    have := lor_byte 10 (x / 16) h16
    simpa using this
  by_cases h0 : x = 0
  · subst h0
    simp [setIntensity, emit]
  · simp only [setIntensity, emit, ne_eq, h0, not_false_eq_true, if_true]
    rw [Nat.mod_eq_of_lt h16, hl, Nat.mod_eq_of_lt (by omega)]

/-- C8: for every intensity `x` in 0..255, `setIntensity(x)` sends exactly one
word, `0x0A00 | (x / 16)`; its data byte is `x / 16`, lies in 0..15, does not
decrease when `x` grows, is `0` for `x = 0` and `15` for `x = 0xFF`. -/
theorem setIntensity_word (s : Driver) (x : Nat) (hx : x ≤ 255) :
    emitted s (setIntensity s x) = [0x0A00 ||| (x / 16)]
      ∧ dataOf (0x0A00 ||| (x / 16)) = x / 16
      ∧ dataOf (0x0A00 ||| (x / 16)) ≤ 15
      ∧ (∀ y, x ≤ y → y ≤ 255 → ∀ wx wy, emitted s (setIntensity s x) = [wx] →
            emitted s (setIntensity s y) = [wy] → dataOf wx ≤ dataOf wy)
      ∧ emitted s (setIntensity s 0) = [0x0A00]
      ∧ emitted s (setIntensity s 0xFF) = [0x0A0F] := by
  have hword : ∀ z, z ≤ 255 → 0x0A00 ||| (z / 16) = 2560 + z / 16 := by
    intro z hz
    have := lor_byte 10 (z / 16) (by omega)
    simpa using this
  have hem : ∀ z, z ≤ 255 → emitted s (setIntensity s z) = [2560 + z / 16] := by
    intro z hz
    rw [setIntensity_wire s z hz]
    simp [emitted]
  have hdata : ∀ z, z ≤ 255 → dataOf (2560 + z / 16) = z / 16 := by
    intro z hz
    simp only [dataOf]; omega
  refine ⟨by rw [hem x hx, hword x hx], by rw [hword x hx, hdata x hx],
    by rw [hword x hx, hdata x hx]; omega, ?_, by rw [hem 0 (by norm_num)],
    by rw [hem 255 (by norm_num)]⟩
  intro y hxy hy wx wy hwx hwy
  rw [hem x hx] at hwx
  rw [hem y hy] at hwy
  simp only [List.cons.injEq, and_true] at hwx hwy
  rw [← hwx, ← hwy, hdata x hx, hdata y hy]
  exact Nat.div_le_div_right hxy

/-- Witness for C8: intensity `0x80`. -/
theorem setIntensity_word_witness :
    emitted ⟨0xFF, []⟩ (setIntensity ⟨0xFF, []⟩ 0x80) = [0x0A00 ||| (0x80 / 16)]
      ∧ dataOf (0x0A00 ||| (0x80 / 16)) = 0x80 / 16
      ∧ dataOf (0x0A00 ||| (0x80 / 16)) ≤ 15
      ∧ (∀ y, 0x80 ≤ y → y ≤ 255 → ∀ wx wy,
            emitted ⟨0xFF, []⟩ (setIntensity ⟨0xFF, []⟩ 0x80) = [wx] →
            emitted ⟨0xFF, []⟩ (setIntensity ⟨0xFF, []⟩ y) = [wy] → dataOf wx ≤ dataOf wy)
      ∧ emitted ⟨0xFF, []⟩ (setIntensity ⟨0xFF, []⟩ 0) = [0x0A00]
      ∧ emitted ⟨0xFF, []⟩ (setIntensity ⟨0xFF, []⟩ 0xFF) = [0x0A0F] :=
  setIntensity_word ⟨0xFF, []⟩ 0x80 (by decide)

/-- C9: `setShutdown`, `setDisplayTest` and `sendNop` each send exactly one word
and leave the stored decode mask unchanged: `setShutdown(b)` sends `0x0C01` for
`b = false` and `0x0C00` for `b = true`, `setDisplayTest(b)` sends `0x0F01` for
`b = true` and `0x0F00` for `b = false`, and `sendNop(d)` sends the word with
address `0x00` and data `d` for every byte `d`. -/
theorem control_words (s : Driver) (b : Bool) (d : Nat) (hd : d ≤ 255) :
    (emitted s (setShutdown s b) = [if b = true then 0x0C00 else 0x0C01]
        ∧ (setShutdown s b).m_digitCoding = s.m_digitCoding)
      ∧ (emitted s (setDisplayTest s b) = [if b = true then 0x0F01 else 0x0F00]
        ∧ (setDisplayTest s b).m_digitCoding = s.m_digitCoding)
      ∧ (∃ w, emitted s (sendNop s d) = [w] ∧ addrOf w = 0x00 ∧ dataOf w = d)
      ∧ (sendNop s d).m_digitCoding = s.m_digitCoding := by
  refine ⟨⟨?_, rfl⟩, ⟨?_, rfl⟩, ⟨d, ?_, ?_, ?_⟩, rfl⟩
  · cases b <;> simp [setShutdown, emit, emitted]
  · cases b <;> simp [setDisplayTest, emit, emitted]
  · simp [sendNop, emit, emitted]
    omega
  · simp only [addrOf]; omega
  · simp only [dataOf]; omega

/-- Witness for C9: shutdown on, display test on, no-op with data `0x5A`. -/
theorem control_words_witness :
    (emitted ⟨0xFF, []⟩ (setShutdown ⟨0xFF, []⟩ true) = [if true = true then 0x0C00 else 0x0C01]
        ∧ (setShutdown ⟨0xFF, []⟩ true).m_digitCoding = (⟨0xFF, []⟩ : Driver).m_digitCoding)
      ∧ (emitted ⟨0xFF, []⟩ (setDisplayTest ⟨0xFF, []⟩ true)
            = [if true = true then 0x0F01 else 0x0F00]
        ∧ (setDisplayTest ⟨0xFF, []⟩ true).m_digitCoding = (⟨0xFF, []⟩ : Driver).m_digitCoding)
      ∧ (∃ w, emitted ⟨0xFF, []⟩ (sendNop ⟨0xFF, []⟩ 0x5A) = [w] ∧ addrOf w = 0x00
            ∧ dataOf w = 0x5A)
      ∧ (sendNop ⟨0xFF, []⟩ 0x5A).m_digitCoding = (⟨0xFF, []⟩ : Driver).m_digitCoding :=
  control_words ⟨0xFF, []⟩ true 0x5A (by decide)


/-- The zero-padding loop sends a `0` at every position from `i` up to
`min precision 8`. -/
theorem sendZerosLoop_eq (t : Nat) : ∀ (s : Driver) (precision i digitsSend : Nat),
    i + t = min precision 8 + 1 →
    sendZerosLoop s precision i digitsSend
      = (sendDigits s ((List.range t).map (fun j => (i + j, 0, false))), digitsSend + t) := by
  induction t with
  | zero =>
    intro s precision i ds hi
    rw [sendZerosLoop]
    have : ¬ (i < precision + 1 ∧ i < 9) := by omega
    simp [this, sendDigits]
  | succ t ih =>
    intro s precision i ds hi
    rw [sendZerosLoop]
    have hc : i < precision + 1 ∧ i < 9 := by omega
    simp only [hc, and_self, if_true]
    rw [ih _ precision (i + 1) (ds + 1) (by omega), List.range_succ_eq_map t]
    rw [show ds + 1 + t = ds + (t + 1) by omega]
    simp only [List.map_cons, List.map_map, sendDigits, Nat.add_zero]
    have : (List.range t).map (fun j => (i + 1 + j, 0, false))
        = (List.range t).map ((fun j => (i + j, 0, false)) ∘ Nat.succ) := by
      apply List.map_congr_left
      intro j _
      simp only [Function.comp, Nat.succ_eq_add_one]
      rw [show i + 1 + j = i + (j + 1) by omega]
    rw [this]

/-- The integer loop sends the `t` low digits of `number` from position `i` on,
where it stops because `number` is used up or position 8 has been written. -/
theorem sendIntegerLoop_eq (t : Nat) : ∀ (s : Driver) (i number digitsSend : Nat),
    i + t ≤ 9 → (number < 10 ^ t ∨ i + t = 9) → (t = 0 ∨ 10 ^ (t - 1) ≤ number) →
    sendIntegerLoop s i number digitsSend
      = (sendDigits s ((List.range t).map (fun j => (i + j, number / 10 ^ j % 10, false))),
         digitsSend + t) := by
  induction t with
  | zero =>
    intro s i number ds _ hstop _
    rw [sendIntegerLoop]
    rcases hstop with h | h
    · have : number = 0 := by simpa using h
      simp [this, sendDigits]
    · have : ¬ i < 9 := by omega
      simp [this, sendDigits]
  | succ t ih =>
    intro s i number ds hi hstop hdig
    have hge : 10 ^ t ≤ number := by
      rcases hdig with h | h
      · omega
      · simpa using h
    have hpos : 0 < 10 ^ t := by positivity
    have hne : number ≠ 0 := by omega
    have h9 : i < 9 := by omega
    rw [sendIntegerLoop]
    simp only [h9, if_true, hne, if_false]
    have hstop' : number / 10 < 10 ^ t ∨ i + 1 + t = 9 := by
      rcases hstop with h | h
      · left
        rw [Nat.div_lt_iff_lt_mul (by norm_num)]
        calc number < 10 ^ (t + 1) := h
          _ = 10 ^ t * 10 := by ring
      · right; omega
    have hdig' : t = 0 ∨ 10 ^ (t - 1) ≤ number / 10 := by
      by_cases ht : t = 0
      · exact Or.inl ht
      · right
        rw [Nat.le_div_iff_mul_le (by norm_num)]
        calc 10 ^ (t - 1) * 10 = 10 ^ (t - 1 + 1) := by ring
          _ = 10 ^ t := by rw [Nat.sub_add_cancel (by omega)]
          _ ≤ number := hge
    rw [ih _ (i + 1) (number / 10) (ds + 1) (by omega) hstop' hdig']
    rw [sendNumberLoop_shift i number t, List.range_succ_eq_map t]
    rw [show ds + 1 + t = ds + (t + 1) by omega]
    simp only [List.map_cons, List.map_map, sendDigits, Nat.add_zero, pow_zero, Nat.div_one]

/-- The `sendDigit` calls of the decimal encoder when the scaled fraction is
zero and `precision ≤ 7`; `t` is the number of integer digits sent after the
dotted one. -/
theorem sendNumberDouble_zero_calls (s : Driver) (negative : Bool) (N p t : Nat)
    (hp : p ≤ 7) (ht : p + 2 + t ≤ 9)
    (hstop : N / 10 < 10 ^ t ∨ p + 2 + t = 9) (hdig : t = 0 ∨ 10 ^ (t - 1) ≤ N / 10) :
    sendNumberDouble s negative N 0 p
      = sendDigits s ((List.range p).map (fun j => (1 + j, 0, false))
          ++ [(p + 1, N % 10, true)]
          ++ (List.range t).map (fun j => (p + 2 + j, N / 10 / 10 ^ j % 10, false))
          ++ (if negative = true ∧ p + 2 + t < 8 then [(p + 2 + t + 1, 0x0A, false)] else [])) := by
  unfold sendNumberDouble
  have hnot : ¬ p + 1 > 8 := by omega
  have hsame : (if N = 0 then sendDigit
        (sendDigits s ((List.range p).map (fun j => (1 + j, 0, false)))) (p + 1) 0 true
      else sendDigit
        (sendDigits s ((List.range p).map (fun j => (1 + j, 0, false)))) (p + 1) (N % 10) true)
      = sendDigit (sendDigits s ((List.range p).map (fun j => (1 + j, 0, false))))
          (p + 1) (N % 10) true := by
    split
    · next h => rw [h]
    · rfl
  simp only [if_true, sendZerosLoop_eq p s p 1 1 (by omega), hnot, if_false, hsame]
  rw [show (1 + p + 1) % 256 = p + 2 by omega, show (p + 2) % 256 = p + 2 by omega]
  rw [sendIntegerLoop_eq t _ (p + 2) (N / 10) (p + 2) ht hstop hdig]
  simp only [sendDigits_append, sendDigits]
  split <;> rfl


/-- Digit-register words of the decimal encoder when the scaled fraction is
zero and `precision ≤ 7`: the words for the number, then the sign word if any. -/
theorem sendNumberDouble_zero_digitWords (s : Driver) (negative : Bool) (N p t : Nat)
    (hp : p ≤ 7) (ht : p + 2 + t ≤ 9)
    (hstop : N / 10 < 10 ^ t ∨ p + 2 + t = 9) (hdig : t = 0 ∨ 10 ^ (t - 1) ≤ N / 10) :
    digitWords (emitted s (sendNumberDouble s negative N 0 p))
      = (List.range p).map (fun j => 256 * (1 + j) + 0x00)
          ++ [256 * (p + 1) + ((N % 10) ||| 0x80)]
          ++ (List.range t).map (fun j => 256 * (p + 2 + j) + N / 10 ^ (j + 1) % 10)
          ++ (if negative = true ∧ p + 2 + t < 8 then [256 * (p + 2 + t + 1) + 0x0A] else []) := by
  rw [sendNumberDouble_zero_calls s negative N p t hp ht hstop hdig]
  have hvalid : ∀ c ∈ (List.range p).map (fun j => (1 + j, 0, false))
          ++ [(p + 1, N % 10, true)]
          ++ (List.range t).map (fun j => (p + 2 + j, N / 10 / 10 ^ j % 10, false))
          ++ (if negative = true ∧ p + 2 + t < 8 then [(p + 2 + t + 1, 0x0A, false)] else []),
      1 ≤ c.1 ∧ c.1 ≤ 8 ∧ c.2.1 < 256 := by
    intro c hc
    simp only [List.mem_append, List.mem_map, List.mem_range, List.mem_singleton] at hc
    rcases hc with ((⟨j, hj, rfl⟩ | rfl) | ⟨j, hj, rfl⟩) | hc
    · exact ⟨by simp only; omega, by simp only; omega, by simp only; omega⟩
    · exact ⟨by simp only; omega, by simp only; omega, by simp only; omega⟩
    · exact ⟨by simp only; omega, by simp only; omega, by simp only; omega⟩
    · split at hc
      · next h =>
        simp only [List.mem_singleton] at hc
        subst hc
        exact ⟨by simp only; omega, by simp only; omega, by simp only; omega⟩
      · simp at hc
  obtain ⟨ws, hws, hdw, -, -⟩ := sendDigits_spec _ hvalid s
  rw [emitted_append s _ ws hws, hdw]
  simp only [List.map_append, List.map_map, List.map_cons, List.map_nil]
  have h1 : (List.range p).map (callWord ∘ fun j => (1 + j, 0, false))
      = (List.range p).map (fun j => 256 * (1 + j) + 0x00) := by
    apply List.map_congr_left
    intro j _
    simp [callWord]
  have h2 : callWord (p + 1, N % 10, true) = 256 * (p + 1) + ((N % 10) ||| 0x80) := by
    have h15 : N % 10 ≤ 15 := by omega
    simp only [callWord, h15, and_self, if_true]
    rw [lor_dot _ h15]
  have h3 : (List.range t).map (callWord ∘ fun j => (p + 2 + j, N / 10 / 10 ^ j % 10, false))
      = (List.range t).map (fun j => 256 * (p + 2 + j) + N / 10 ^ (j + 1) % 10) := by
    apply List.map_congr_left
    intro j _
    simp only [Function.comp, callWord, Bool.false_eq_true, and_false, if_false]
    rw [Nat.div_div_eq_div_mul, pow_succ, Nat.mul_comm 10]
  have h4 : (if negative = true ∧ p + 2 + t < 8 then [(p + 2 + t + 1, 0x0A, false)] else []).map
        callWord
      = (if negative = true ∧ p + 2 + t < 8 then [256 * (p + 2 + t + 1) + 0x0A] else []) := by
    split <;> simp [callWord]
  rw [h1, h2, h3, h4]

/-- C10: decimal encoder with scaled fraction `F = 0` and precision `p` in
0..7 (`N` the integer part of `|x|`): the digit words sent for the number (the
digit-register words other than the dash) are, in order, a zero at each of the
positions `1..p`, then at position `p+1` the digit `N mod 10` with the dot bit
(`| 0x80`), then the higher digits of `N` at positions `p+2, p+3, ..` without
dot, `t` of them, where sending stops because `N` is used up or position 8 has
been written.  `sendNumber(3.0, 2)` sends `0`, `0`, then `3` with dot at
position 3. -/
theorem sendNumberDouble_zero_fraction (s : Driver) (negative : Bool) (N p t : Nat)
    (hp : p ≤ 7) (ht : t ≤ 7 - p)
    (hstop : N / 10 < 10 ^ t ∨ t = 7 - p) (hdig : t = 0 ∨ 10 ^ (t - 1) ≤ N / 10) :
    (digitWords (emitted s (sendNumberDouble s negative N 0 p))).filter
          (fun w => decide (dataOf w ≠ 0x0A))
        = (List.range p).map (fun j => 256 * (1 + j) + 0x00)
            ++ [256 * (p + 1) + ((N % 10) ||| 0x80)]
            ++ (List.range t).map (fun j => 256 * (p + 2 + j) + N / 10 ^ (j + 1) % 10)
      ∧ (negative = false →
          digitWords (emitted s (sendNumberDouble s negative N 0 p))
            = (List.range p).map (fun j => 256 * (1 + j) + 0x00)
                ++ [256 * (p + 1) + ((N % 10) ||| 0x80)]
                ++ (List.range t).map (fun j => 256 * (p + 2 + j) + N / 10 ^ (j + 1) % 10))
      ∧ emitted ⟨0xFF, []⟩ (sendNumberDouble ⟨0xFF, []⟩ false 3 0 2) = [0x0100, 0x0200, 0x0383] := by
  have hdw := sendNumberDouble_zero_digitWords s negative N p t hp (by omega)
    (by rcases hstop with h | h
        · exact Or.inl h
        · right; omega) hdig
  refine ⟨?_, ?_, ?_⟩
  · rw [hdw, List.filter_append]
    have hkeep : ((List.range p).map (fun j => 256 * (1 + j) + 0x00)
            ++ [256 * (p + 1) + ((N % 10) ||| 0x80)]
            ++ (List.range t).map (fun j => 256 * (p + 2 + j) + N / 10 ^ (j + 1) % 10)).filter
          (fun w => decide (dataOf w ≠ 0x0A))
        = (List.range p).map (fun j => 256 * (1 + j) + 0x00)
            ++ [256 * (p + 1) + ((N % 10) ||| 0x80)]
            ++ (List.range t).map (fun j => 256 * (p + 2 + j) + N / 10 ^ (j + 1) % 10) := by
      rw [List.filter_eq_self]
      intro w hw
      simp only [List.mem_append, List.mem_map, List.mem_range, List.mem_singleton] at hw
      simp only [decide_eq_true_eq]
      rcases hw with (⟨j, _, rfl⟩ | rfl) | ⟨j, _, rfl⟩
      · rw [dataOf_digit _ _ (by norm_num)]; norm_num
      · rw [lor_dot _ (by omega), dataOf_digit _ _ (by omega)]; omega
      · rw [dataOf_digit _ _ (by omega)]; omega
    have hdrop : (if negative = true ∧ p + 2 + t < 8 then [256 * (p + 2 + t + 1) + 0x0A]
          else []).filter (fun w => decide (dataOf w ≠ 0x0A)) = [] := by
      split
      · simp [dataOf_digit (p + 2 + t + 1) 10 (by norm_num)]
      · rfl
    rw [hkeep, hdrop, List.append_nil]
  · intro hneg
    rw [hdw]
    simp [hneg]
  · simp [emitted, sendNumberDouble, sendZerosLoop, sendIntegerLoop, sendDigit, isBcdSet,
      numToBitMask, numToBitMaskLoop, emit, setBcdDecodeMode, setRawDecodeMode]

/-- Witness for C10: `x = 123.0` with precision 2 (`N = 123`, two higher digits). -/
theorem sendNumberDouble_zero_fraction_witness :
    (digitWords (emitted ⟨0xFF, []⟩ (sendNumberDouble ⟨0xFF, []⟩ true 123 0 2))).filter
          (fun w => decide (dataOf w ≠ 0x0A))
        = (List.range 2).map (fun j => 256 * (1 + j) + 0x00)
            ++ [256 * (2 + 1) + ((123 % 10) ||| 0x80)]
            ++ (List.range 2).map (fun j => 256 * (2 + 2 + j) + 123 / 10 ^ (j + 1) % 10)
      ∧ (true = false →
          digitWords (emitted ⟨0xFF, []⟩ (sendNumberDouble ⟨0xFF, []⟩ true 123 0 2))
            = (List.range 2).map (fun j => 256 * (1 + j) + 0x00)
                ++ [256 * (2 + 1) + ((123 % 10) ||| 0x80)]
                ++ (List.range 2).map (fun j => 256 * (2 + 2 + j) + 123 / 10 ^ (j + 1) % 10))
      ∧ emitted ⟨0xFF, []⟩ (sendNumberDouble ⟨0xFF, []⟩ false 3 0 2) = [0x0100, 0x0200, 0x0383] :=
  sendNumberDouble_zero_fraction ⟨0xFF, []⟩ true 123 2 2 (by decide) (by decide) (by decide)
    (by decide)

/-- C11 (evaluation at the failing inputs): for `x = -3.0`, precision 2
(`N = 3`, `F = 0`) the encoder writes positions 1, 2, 3 and then puts the dash
at position 5, leaving position 4 out; for `x = -12345.0`, precision 2 it writes
positions 1..7 and sends no dash although position 8 is free; for `x = -0.5`,
precision 1 it sends `5`, `0` with dot and the dash at position 3. -/
theorem sendNumberDouble_dash_misplaced :
    emitted ⟨0xFF, []⟩ (sendNumberDouble ⟨0xFF, []⟩ true 3 0 2)
        = [0x0100, 0x0200, 0x0383, 0x050A]
      ∧ emitted ⟨0xFF, []⟩ (sendNumberDouble ⟨0xFF, []⟩ true 12345 0 2)
        = [0x0100, 0x0200, 0x0385, 0x0404, 0x0503, 0x0602, 0x0701]
      ∧ emitted ⟨0xFF, []⟩ (sendNumberDouble ⟨0xFF, []⟩ true 0 5 1)
        = [0x0105, 0x0280, 0x030A] := by
  refine ⟨?_, ?_, ?_⟩ <;>
    simp [emitted, sendNumberDouble, sendZerosLoop, sendDecimalsLoop, sendIntegerLoop, sendDigit,
      isBcdSet, numToBitMask, numToBitMaskLoop, emit, setBcdDecodeMode, setRawDecodeMode]

/-- C12 (evaluation at the failing input): for `x = 1.0625`, precision 2
(`N = 1`, `F = 6`) the encoder sends `6` at position 1 and `1` with dot at
position 3 and no word for position 2; with `F = 0` the same call sends a zero
at positions 1 and 2. -/
theorem sendNumberDouble_fraction_not_padded :
    emitted ⟨0xFF, []⟩ (sendNumberDouble ⟨0xFF, []⟩ false 1 6 2) = [0x0106, 0x0381]
      ∧ emitted ⟨0xFF, []⟩ (sendNumberDouble ⟨0xFF, []⟩ false 1 0 2)
        = [0x0100, 0x0200, 0x0381] := by
  refine ⟨?_, ?_⟩ <;>
    simp [emitted, sendNumberDouble, sendZerosLoop, sendDecimalsLoop, sendIntegerLoop, sendDigit,
      isBcdSet, numToBitMask, numToBitMaskLoop, emit, setBcdDecodeMode, setRawDecodeMode]

/-- C14 (evaluation at the failing input): destroying a driver just built with
the default arguments sends ten words, not nine: the blank words for positions
1..7, the decode-mode word `0x09FF`, the blank word for position 8 and the
shutdown word `0x0C00`. -/
theorem destruct_fresh_extra_decode_word :
    (construct 8 0xFF).m_digitCoding = 0xFF
      ∧ emitted (construct 8 0xFF) (destruct (construct 8 0xFF))
        = [0x010F, 0x020F, 0x030F, 0x040F, 0x050F, 0x060F, 0x070F, 0x09FF, 0x080F, 0x0C00] := by
  refine ⟨?_, ?_⟩ <;>
    simp [emitted, construct, destruct, clear, clearLoop, setScanLimit, setIntensity, setShutdown,
      sendDigit, isBcdSet, numToBitMask, numToBitMaskLoop, emit, setBcdDecodeMode,
      setRawDecodeMode]

/-- C15 (evaluation at the failing input): with digit 8, `isBcdSet(8)` is still
false after `setBcdDecodeMode(numToBitMask(8))`, from the mask `0xFF` as from
the mask `0x00`; with digit 1 both halves of the round trip hold. -/
theorem isBcdSet_digit8_after_setBcd :
    isBcdSet (setBcdDecodeMode ⟨0xFF, []⟩ (numToBitMask 8)) 8 = false
      ∧ isBcdSet (setBcdDecodeMode ⟨0x00, []⟩ (numToBitMask 8)) 8 = false
      ∧ isBcdSet (setBcdDecodeMode ⟨0x00, []⟩ (numToBitMask 1)) 1 = true
      ∧ isBcdSet (setRawDecodeMode ⟨0xFF, []⟩ (numToBitMask 1)) 1 = false := by
  decide

/-- The fraction loop is a run of `sendDigit` calls: the `t` low digits of
`decimals` at positions `i, i+1, ..`, none above position 8 or above `precision`. -/
theorem sendDecimalsLoop_run (r : Nat) : ∀ (s : Driver) (p i F ds : Nat),
    i + r = 9 → i ≤ p + 1 →
    ∃ t, i + t ≤ 9 ∧ i + t ≤ p + 1
      ∧ (sendDecimalsLoop s p i F ds).1
        = sendDigits s ((List.range t).map (fun j => (i + j, F / 10 ^ j % 10, false))) := by
  induction r with
  | zero =>
    intro s p i F ds hi hip
    refine ⟨0, by omega, by omega, ?_⟩
    rw [sendDecimalsLoop]
    have : ¬ (i < p + 1 ∧ i < 9) := by omega
    simp [this, sendDigits]
  | succ r ih =>
    intro s p i F ds hi hip
    rw [sendDecimalsLoop]
    by_cases hc : i < p + 1 ∧ i < 9
    · simp only [hc, and_self, if_true]
      by_cases h0 : F / 10 = 0
      · refine ⟨1, by omega, by omega, ?_⟩
        simp [h0, sendDigits, List.range_succ]
      · obtain ⟨t, ht9, htp, hrun⟩ :=
          ih (sendDigit s i (F % 10) false) p (i + 1) (F / 10) (ds + 1) (by omega) (by omega)
        refine ⟨t + 1, by omega, by omega, ?_⟩
        simp only [h0, if_false]
        rw [hrun, sendNumberLoop_shift i F t, List.range_succ_eq_map t]
        simp only [List.map_cons, List.map_map, sendDigits, Nat.add_zero, pow_zero, Nat.div_one]
    · refine ⟨0, by omega, by omega, ?_⟩
      simp [hc, sendDigits]

/-- The integer loop is a run of `sendDigit` calls: the `t` low digits of
`number` at positions `i, i+1, ..`, none above position 8. -/
theorem sendIntegerLoop_run (r : Nat) : ∀ (s : Driver) (i N ds : Nat),
    i + r = 9 →
    ∃ t, i + t ≤ 9
      ∧ (sendIntegerLoop s i N ds).1
        = sendDigits s ((List.range t).map (fun j => (i + j, N / 10 ^ j % 10, false))) := by
  induction r with
  | zero =>
    intro s i N ds hi
    refine ⟨0, by omega, ?_⟩
    rw [sendIntegerLoop]
    have : ¬ i < 9 := by omega
    simp [this, sendDigits]
  | succ r ih =>
    intro s i N ds hi
    rw [sendIntegerLoop]
    have h9 : i < 9 := by omega
    simp only [h9, if_true]
    by_cases h0 : N = 0
    · refine ⟨0, by omega, ?_⟩
      simp [h0, sendDigits]
    · obtain ⟨t, ht9, hrun⟩ :=
        ih (sendDigit s i (N % 10) false) (i + 1) (N / 10) (ds + 1) (by omega)
      refine ⟨t + 1, by omega, ?_⟩
      simp only [h0, if_false]
      rw [hrun, sendNumberLoop_shift i N t, List.range_succ_eq_map t]
      simp only [List.map_cons, List.map_map, sendDigits, Nat.add_zero, pow_zero, Nat.div_one]

/-- The fraction part of the decimal encoder, for a zero or non-zero scaled
fraction alike, is a run of `sendDigit` calls carrying digits of `F` at
positions `1, 2, ..`, none above position 8 or above `precision`. -/
theorem sendNumberDouble_fraction_run (s : Driver) (F p : Nat) :
    ∃ t, t ≤ 8 ∧ t ≤ p
      ∧ (if F = 0 then sendZerosLoop s p 1 1 else sendDecimalsLoop s p 1 F 1).1
        = sendDigits s ((List.range t).map (fun j => (1 + j, F / 10 ^ j % 10, false))) := by
  by_cases hF : F = 0
  · subst hF
    refine ⟨min p 8, Nat.min_le_right _ _, Nat.min_le_left _ _, ?_⟩
    simp only [if_true]
    rw [sendZerosLoop_eq (min p 8) s p 1 1 (by omega)]
    simp
  · obtain ⟨t, ht9, htp, hrun⟩ := sendDecimalsLoop_run 8 s p 1 F 1 (by norm_num) (by omega)
    refine ⟨t, by omega, by omega, ?_⟩
    simp only [hF, if_false]
    exact hrun

/-- With `precision ≥ 8` the decimal encoder is only the run of fraction digits. -/
theorem sendNumberDouble_high (s : Driver) (negative : Bool) (N F p : Nat) (hp : 8 ≤ p) :
    ∃ t, t ≤ 8
      ∧ sendNumberDouble s negative N F p
        = sendDigits s ((List.range t).map (fun j => (1 + j, F / 10 ^ j % 10, false))) := by
  obtain ⟨t, ht8, -, hrun⟩ := sendNumberDouble_fraction_run s F p
  refine ⟨t, ht8, ?_⟩
  unfold sendNumberDouble
  have h8 : p + 1 > 8 := by omega
  simp only [h8, if_true]
  exact hrun

/-- With `precision ≤ 7` the decimal encoder is a run of `sendDigit` calls:
fraction digits at positions up to `precision`, the dotted low integer digit
at `precision + 1`, higher integer digits from `precision + 2`, and at most
one dash call. -/
theorem sendNumberDouble_low (s : Driver) (negative : Bool) (N F p : Nat) (hp : p ≤ 7) :
    ∃ tf ti sign, tf ≤ p ∧ p + 2 + ti ≤ 9
      ∧ (sign = [] ∨ ∃ q, 1 ≤ q ∧ q ≤ 8 ∧ sign = [(q, 0x0A, false)])
      ∧ (negative = false → sign = [])
      ∧ sendNumberDouble s negative N F p
        = sendDigits s ((List.range tf).map (fun j => (1 + j, F / 10 ^ j % 10, false))
            ++ [(p + 1, N % 10, true)]
            ++ (List.range ti).map (fun j => (p + 2 + j, N / 10 / 10 ^ j % 10, false))
            ++ sign) := by
  obtain ⟨tf, -, htf, hfrac⟩ := sendNumberDouble_fraction_run s F p
  unfold sendNumberDouble
  have h8 : ¬ p + 1 > 8 := by omega
  simp only [h8, if_false]
  generalize (if F = 0 then sendZerosLoop s p 1 1 else sendDecimalsLoop s p 1 F 1) = r at hfrac ⊢
  have hsame : (if N = 0 then sendDigit r.1 (p + 1) 0 true
      else sendDigit r.1 (p + 1) (N % 10) true) = sendDigit r.1 (p + 1) (N % 10) true := by
    split
    · next h => rw [h]
    · rfl
  rw [hsame, show (p + 2) % 256 = p + 2 by omega]
  obtain ⟨ti, hti, hint⟩ := sendIntegerLoop_run (7 - p) (sendDigit r.1 (p + 1) (N % 10) true)
    (p + 2) (N / 10) ((r.2 + 1) % 256) (by omega)
  generalize sendIntegerLoop (sendDigit r.1 (p + 1) (N % 10) true) (p + 2) (N / 10)
    ((r.2 + 1) % 256) = r3 at hint ⊢
  by_cases hneg : negative = true ∧ r3.2 < 8
  · refine ⟨tf, ti, [(r3.2 + 1, 0x0A, false)], htf, hti,
      Or.inr ⟨r3.2 + 1, by omega, by omega, rfl⟩, ?_, ?_⟩
    · intro h; rw [h] at hneg; simp at hneg
    · simp only [hneg, and_self, if_true, sendDigits_append, sendDigits, hint, hfrac]
  · refine ⟨tf, ti, [], htf, hti, Or.inl rfl, fun _ => rfl, ?_⟩
    simp only [hneg, if_false, sendDigits_append, sendDigits, hint, hfrac]

theorem dotBit_iff (x : Nat) (hx : x < 256) :
    decide (x &&& 0x80 ≠ 0) = decide (128 ≤ x) := by
  have h := and_two_pow_ne_zero x 7
  norm_num at h
  by_cases h128 : 128 ≤ x
  · have : x / 128 % 2 = 1 := by omega
    simp only [ne_eq, decide_not, h128, decide_True]
    simpa [this] using h
  · have : ¬ x / 128 % 2 = 1 := by omega
    simp only [ne_eq, decide_not, h128, decide_False]
    simpa [this] using h

/-- Calls without dot and with a value up to `0x0A` give words without dot bit. -/
theorem filter_dot_plain (l : List (Nat × Nat × Bool))
    (h : ∀ c ∈ l, c.2.1 ≤ 10 ∧ c.2.2 = false) :
    (l.map callWord).filter (fun w => decide (dataOf w &&& 0x80 ≠ 0)) = [] := by
  rw [List.filter_eq_nil_iff]
  intro w hw
  rw [List.mem_map] at hw
  obtain ⟨c, hc, rfl⟩ := hw
  obtain ⟨h10, hdot⟩ := h c hc
  have hcw : callWord c = 256 * c.1 + c.2.1 := by simp [callWord, hdot]
  rw [hcw, dataOf_digit _ _ (by omega), dotBit_iff _ (by omega)]
  simp only [decide_eq_true_eq]
  omega

/-- C13: in the decimal encoder with precision `p` in 0..7, exactly one
digit-register word has bit 7 (the dot flag) of its data set, and it is the
word at position `p+1`, carrying `N mod 10`; with `p ≥ 8` the digit-register
words are digits of the scaled fraction `F` at positions `1, 2, ..` up to at
most 8, none has the dot flag or is a dash, and the call does not depend on
the integer part or the sign. -/
theorem sendNumberDouble_dot_flag (s : Driver) (negative : Bool) (N F p : Nat) :
    (p ≤ 7 →
        (digitWords (emitted s (sendNumberDouble s negative N F p))).filter
            (fun w => decide (dataOf w &&& 0x80 ≠ 0))
          = [256 * (p + 1) + ((N % 10) ||| 0x80)])
      ∧ (8 ≤ p →
          (∃ t, t ≤ 8 ∧ digitWords (emitted s (sendNumberDouble s negative N F p))
              = (List.range t).map (fun j => 256 * (1 + j) + F / 10 ^ j % 10))
          ∧ (∀ w ∈ digitWords (emitted s (sendNumberDouble s negative N F p)),
              dataOf w &&& 0x80 = 0 ∧ dataOf w ≠ 0x0A ∧ 1 ≤ addrOf w ∧ addrOf w ≤ 8)
          ∧ (∀ (negative' : Bool) (N' : Nat),
              sendNumberDouble s negative' N' F p = sendNumberDouble s negative N F p)) := by
  refine ⟨?_, ?_⟩
  · intro hp
    obtain ⟨tf, ti, sign, htf, hti, hsign, -, hrun⟩ := sendNumberDouble_low s negative N F p hp
    have hvalid : ∀ c ∈ (List.range tf).map (fun j => (1 + j, F / 10 ^ j % 10, false))
            ++ [(p + 1, N % 10, true)]
            ++ (List.range ti).map (fun j => (p + 2 + j, N / 10 / 10 ^ j % 10, false))
            ++ sign, 1 ≤ c.1 ∧ c.1 ≤ 8 ∧ c.2.1 < 256 := by
      intro c hc
      simp only [List.mem_append, List.mem_map, List.mem_range, List.mem_singleton] at hc
      rcases hc with ((⟨j, hj, rfl⟩ | rfl) | ⟨j, hj, rfl⟩) | hc
      · exact ⟨by simp only; omega, by simp only; omega, by simp only; omega⟩
      · exact ⟨by simp only; omega, by simp only; omega, by simp only; omega⟩
      · exact ⟨by simp only; omega, by simp only; omega, by simp only; omega⟩
      · rcases hsign with h | ⟨q, hq1, hq8, h⟩
        · rw [h] at hc; simp at hc
        · rw [h] at hc
          simp only [List.mem_singleton] at hc
          subst hc
          exact ⟨hq1, hq8, by norm_num⟩
    obtain ⟨ws, hws, hdw, -, -⟩ := sendDigits_spec _ hvalid s
    rw [hrun, emitted_append s _ ws hws, hdw]
    simp only [List.map_append, List.filter_append]
    have h1 := filter_dot_plain ((List.range tf).map (fun j => (1 + j, F / 10 ^ j % 10, false)))
      (by intro c hc
          rw [List.mem_map] at hc
          obtain ⟨j, -, rfl⟩ := hc
          exact ⟨by simp only; omega, rfl⟩)
    have h3 := filter_dot_plain
      ((List.range ti).map (fun j => (p + 2 + j, N / 10 / 10 ^ j % 10, false)))
      (by intro c hc
          rw [List.mem_map] at hc
          obtain ⟨j, -, rfl⟩ := hc
          exact ⟨by simp only; omega, rfl⟩)
    have h4 := filter_dot_plain sign
      (by intro c hc
          rcases hsign with h | ⟨q, -, -, h⟩
          · rw [h] at hc; simp at hc
          · rw [h] at hc
            simp only [List.mem_singleton] at hc
            subst hc
            exact ⟨by norm_num, rfl⟩)
    have h15 : N % 10 ≤ 15 := by omega
    have h2 : callWord (p + 1, N % 10, true) = 256 * (p + 1) + ((N % 10) ||| 0x80) := by
      simp only [callWord, h15, and_self, if_true]
      rw [lor_dot _ h15]
    have h2' : decide (dataOf (256 * (p + 1) + ((N % 10) ||| 0x80)) &&& 0x80 ≠ 0) = true := by
      rw [lor_dot _ h15, dataOf_digit _ _ (by omega), dotBit_iff _ (by omega)]
      simp
    rw [h1, h3, h4]
    simp only [List.map_cons, List.map_nil, h2, List.nil_append, List.append_nil]
    rw [List.filter_eq_self]
    intro w hw
    simp only [List.mem_singleton] at hw
    rw [hw]; exact h2'
  · intro hp
    obtain ⟨t, ht8, hrun⟩ := sendNumberDouble_high s negative N F p hp
    have hvalid : ∀ c ∈ (List.range t).map (fun j => (1 + j, F / 10 ^ j % 10, false)),
        1 ≤ c.1 ∧ c.1 ≤ 8 ∧ c.2.1 < 256 := by
      intro c hc
      rw [List.mem_map] at hc
      obtain ⟨j, hj, rfl⟩ := hc
      rw [List.mem_range] at hj
      exact ⟨by simp only; omega, by simp only; omega, by simp only; omega⟩
    obtain ⟨ws, hws, hdw, -, -⟩ := sendDigits_spec _ hvalid s
    have hwords : digitWords (emitted s (sendNumberDouble s negative N F p))
        = (List.range t).map (fun j => 256 * (1 + j) + F / 10 ^ j % 10) := by
      rw [hrun, emitted_append s _ ws hws, hdw, List.map_map]
      apply List.map_congr_left
      intro j _
      simp [callWord]
    refine ⟨⟨t, ht8, hwords⟩, ?_, ?_⟩
    · intro w hw
      rw [hwords, List.mem_map] at hw
      obtain ⟨j, hj, rfl⟩ := hw
      rw [List.mem_range] at hj
      have hd : F / 10 ^ j % 10 < 256 := by omega
      have hbit := dotBit_iff (F / 10 ^ j % 10) hd
      have hlt : ¬ 128 ≤ F / 10 ^ j % 10 := by omega
      rw [dataOf_digit _ _ hd]
      refine ⟨?_, by omega, ?_, ?_⟩
      · simpa [hlt] using hbit
      · simp only [addrOf]; omega
      · simp only [addrOf]; omega
    · intro negative' N'
      unfold sendNumberDouble
      have h8 : p + 1 > 8 := by omega
      simp only [h8, if_true]

/-- Witness for C13: precision 2 (`x = -12.5`) and precision 9 (`F = 5`). -/
theorem sendNumberDouble_dot_flag_witness :
    (digitWords (emitted ⟨0xFF, []⟩ (sendNumberDouble ⟨0xFF, []⟩ true 12 50 2))).filter
          (fun w => decide (dataOf w &&& 0x80 ≠ 0))
        = [256 * (2 + 1) + ((12 % 10) ||| 0x80)]
      ∧ ((∃ t, t ≤ 8 ∧ digitWords (emitted ⟨0xFF, []⟩ (sendNumberDouble ⟨0xFF, []⟩ true 12 5 9))
              = (List.range t).map (fun j => 256 * (1 + j) + 5 / 10 ^ j % 10))
          ∧ (∀ w ∈ digitWords (emitted ⟨0xFF, []⟩ (sendNumberDouble ⟨0xFF, []⟩ true 12 5 9)),
              dataOf w &&& 0x80 = 0 ∧ dataOf w ≠ 0x0A ∧ 1 ≤ addrOf w ∧ addrOf w ≤ 8)
          ∧ (∀ (negative' : Bool) (N' : Nat),
              sendNumberDouble ⟨0xFF, []⟩ negative' N' 5 9
                = sendNumberDouble ⟨0xFF, []⟩ true 12 5 9)) :=
  ⟨(sendNumberDouble_dot_flag ⟨0xFF, []⟩ true 12 50 2).1 (by decide),
   (sendNumberDouble_dot_flag ⟨0xFF, []⟩ true 12 5 9).2 (by decide)⟩

/-- The whole pin trace of one word: three writes, sixteen clocked bits, four
writes. -/
theorem sendDataToRegister_shape (w : Nat) :
    sendDataToRegister w
      = [⟨Pin.load, false⟩, ⟨Pin.clk, false⟩, ⟨Pin.dataOut, false⟩]
        ++ (((List.range 16).map (fun j => decide (w % 65536 / 2 ^ (15 - j) % 2 = 1))).flatMap
            (fun b => [⟨Pin.clk, false⟩, ⟨Pin.dataOut, b⟩, ⟨Pin.clk, true⟩])
          ++ [⟨Pin.clk, false⟩, ⟨Pin.load, true⟩, ⟨Pin.dataOut, false⟩, ⟨Pin.load, false⟩]) := by
  unfold sendDataToRegister
  rw [show (0x8000 : Nat) = 2 ^ 15 by norm_num, shiftLoop_two_pow (w % 65536) 15,
    List.flatMap_map, List.append_assoc]

theorem dataOnlyWhileClkLow_bit (b : Bool) (rest : List PinWrite) (c : Option Bool) :
    dataOnlyWhileClkLow (⟨Pin.clk, false⟩ :: ⟨Pin.dataOut, b⟩ :: ⟨Pin.clk, true⟩ :: rest) c
      = dataOnlyWhileClkLow rest (some true) := by
  simp [dataOnlyWhileClkLow]

theorem dataOnlyWhileClkLow_bits (bits : List Bool) (rest : List PinWrite) (c : Option Bool) :
    dataOnlyWhileClkLow
        (bits.flatMap (fun b => [⟨Pin.clk, false⟩, ⟨Pin.dataOut, b⟩, ⟨Pin.clk, true⟩]) ++ rest) c
      = dataOnlyWhileClkLow rest (if bits = [] then c else some true) := by
  induction bits generalizing c with
  | nil => simp
  | cons b bs ih =>
    rw [List.flatMap_cons]
    simp only [List.cons_append, List.nil_append, List.append_assoc]
    rw [dataOnlyWhileClkLow_bit, ih]
    cases bs <;> simp

theorem loadAtRisingEdges_bit (b : Bool) (rest : List PinWrite) (c : Bool) (l : Option Bool) :
    loadAtRisingEdges (⟨Pin.clk, false⟩ :: ⟨Pin.dataOut, b⟩ :: ⟨Pin.clk, true⟩ :: rest) c l
      = l :: loadAtRisingEdges rest true l := by
  simp [loadAtRisingEdges]

theorem loadAtRisingEdges_bits (bits : List Bool) (rest : List PinWrite) (c : Bool)
    (l : Option Bool) :
    loadAtRisingEdges
        (bits.flatMap (fun b => [⟨Pin.clk, false⟩, ⟨Pin.dataOut, b⟩, ⟨Pin.clk, true⟩]) ++ rest) c l
      = List.replicate bits.length l
          ++ loadAtRisingEdges rest (if bits = [] then c else true) l := by
  induction bits generalizing c with
  | nil => simp
  | cons b bs ih =>
    rw [List.flatMap_cons]
    simp only [List.cons_append, List.nil_append, List.append_assoc]
    rw [loadAtRisingEdges_bit, ih]
    cases bs <;> simp [List.replicate_succ]

theorem countWrites_bits (bits : List Bool) :
    countWrites Pin.load true
        (bits.flatMap (fun b => [⟨Pin.clk, false⟩, ⟨Pin.dataOut, b⟩, ⟨Pin.clk, true⟩])) = 0 := by
  induction bits with
  | nil => simp [countWrites]
  | cons b bs ih =>
    rw [List.flatMap_cons]
    unfold countWrites at ih ⊢
    rw [List.countP_append, ih]
    simp [List.countP_cons]

/-- C16: in the pin trace of `sendDataToRegister(w)` the data line is written
only while the last level written to the clock line is low, and the level it
has at the `j`-th rising clock edge is bit `15 - j` of `w` whatever the lines
held before the call; the load line is low at all 16 rising edges, is written
high exactly once, after the 16th rising edge and after the clock has been
lowered, and is then written low; and the last level written to each of the
three lines is low. -/
theorem sendDataToRegister_timing (w : Nat) (hw : w < 65536) (c d : Bool) (l : Option Bool) :
    dataOnlyWhileClkLow (sendDataToRegister w) none = true
      ∧ risingEdgeSamples (sendDataToRegister w) c d
          = (List.range 16).map (fun j => decide (w / 2 ^ (15 - j) % 2 = 1))
      ∧ loadAtRisingEdges (sendDataToRegister w) c l = List.replicate 16 (some false)
      ∧ countWrites Pin.load true (sendDataToRegister w) = 1
      ∧ (∃ pre, sendDataToRegister w
            = pre ++ [⟨Pin.load, true⟩, ⟨Pin.dataOut, false⟩, ⟨Pin.load, false⟩]
          ∧ (risingEdgeSamples pre c d).length = 16
          ∧ lastLevel Pin.clk pre = some false)
      ∧ lastLevel Pin.dataOut (sendDataToRegister w) = some false
      ∧ lastLevel Pin.clk (sendDataToRegister w) = some false
      ∧ lastLevel Pin.load (sendDataToRegister w) = some false := by
  have hshape := sendDataToRegister_shape w
  refine ⟨?_, risingEdgeSamples_sendDataToRegister w hw c d, ?_, ?_, ?_, ?_, ?_, ?_⟩
  · have hpre : ∀ (rest : List PinWrite), dataOnlyWhileClkLow
        (⟨Pin.load, false⟩ :: ⟨Pin.clk, false⟩ :: ⟨Pin.dataOut, false⟩ :: rest) none
        = dataOnlyWhileClkLow rest (some false) := by
      intro rest; simp [dataOnlyWhileClkLow]
    have hpost : ∀ (c' : Option Bool), dataOnlyWhileClkLow
        [⟨Pin.clk, false⟩, ⟨Pin.load, true⟩, ⟨Pin.dataOut, false⟩, ⟨Pin.load, false⟩] c'
        = true := by
      intro c'; simp [dataOnlyWhileClkLow]
    rw [hshape]
    simp only [List.cons_append, List.nil_append]
    rw [hpre, dataOnlyWhileClkLow_bits, hpost]
  · have hpre : ∀ (rest : List PinWrite), loadAtRisingEdges
        (⟨Pin.load, false⟩ :: ⟨Pin.clk, false⟩ :: ⟨Pin.dataOut, false⟩ :: rest) c l
        = loadAtRisingEdges rest false (some false) := by
      intro rest; simp [loadAtRisingEdges]
    have hpost : ∀ (c' : Bool) (l' : Option Bool), loadAtRisingEdges
        [⟨Pin.clk, false⟩, ⟨Pin.load, true⟩, ⟨Pin.dataOut, false⟩, ⟨Pin.load, false⟩] c' l'
        = [] := by
      intro c' l'; simp [loadAtRisingEdges]
    rw [hshape]
    simp only [List.cons_append, List.nil_append]
    rw [hpre, loadAtRisingEdges_bits, hpost]
    simp
  · rw [hshape]
    unfold countWrites
    rw [List.countP_append, List.countP_append]
    have := countWrites_bits ((List.range 16).map (fun j => decide (w % 65536 / 2 ^ (15 - j) % 2 = 1)))
    unfold countWrites at this
    rw [this]
    simp [List.countP_cons]
  · refine ⟨[⟨Pin.load, false⟩, ⟨Pin.clk, false⟩, ⟨Pin.dataOut, false⟩]
        ++ (((List.range 16).map (fun j => decide (w % 65536 / 2 ^ (15 - j) % 2 = 1))).flatMap
            (fun b => [⟨Pin.clk, false⟩, ⟨Pin.dataOut, b⟩, ⟨Pin.clk, true⟩])
          ++ [⟨Pin.clk, false⟩]), ?_, ?_, ?_⟩
    · rw [hshape]; simp
    · have hpre : ∀ (rest : List PinWrite), risingEdgeSamples
          (⟨Pin.load, false⟩ :: ⟨Pin.clk, false⟩ :: ⟨Pin.dataOut, false⟩ :: rest) c d
          = risingEdgeSamples rest false false := by
        intro rest; simp [risingEdgeSamples]
      have hpost : ∀ (c' d' : Bool), risingEdgeSamples [⟨Pin.clk, false⟩] c' d' = [] := by
        intro c' d'; simp [risingEdgeSamples]
      simp only [List.cons_append, List.nil_append]
      rw [hpre, risingEdgeSamples_bits, hpost]
      simp
    · simp [lastLevel, List.reverse_append]
  · rw [hshape]; simp [lastLevel, List.reverse_append]
  · rw [hshape]; simp [lastLevel, List.reverse_append]
  · rw [hshape]; simp [lastLevel, List.reverse_append]

/-- Witness for C16: the word `0x0A0F`. -/
theorem sendDataToRegister_timing_witness :
    dataOnlyWhileClkLow (sendDataToRegister 0x0A0F) none = true
      ∧ risingEdgeSamples (sendDataToRegister 0x0A0F) true true
          = (List.range 16).map (fun j => decide (0x0A0F / 2 ^ (15 - j) % 2 = 1))
      ∧ loadAtRisingEdges (sendDataToRegister 0x0A0F) true none = List.replicate 16 (some false)
      ∧ countWrites Pin.load true (sendDataToRegister 0x0A0F) = 1
      ∧ (∃ pre, sendDataToRegister 0x0A0F
            = pre ++ [⟨Pin.load, true⟩, ⟨Pin.dataOut, false⟩, ⟨Pin.load, false⟩]
          ∧ (risingEdgeSamples pre true true).length = 16
          ∧ lastLevel Pin.clk pre = some false)
      ∧ lastLevel Pin.dataOut (sendDataToRegister 0x0A0F) = some false
      ∧ lastLevel Pin.clk (sendDataToRegister 0x0A0F) = some false
      ∧ lastLevel Pin.load (sendDataToRegister 0x0A0F) = some false :=
  sendDataToRegister_timing 0x0A0F (by decide) true true none

/-- For `|n| ≥ 10^7` the calls of `sendNumber(n)` are the eight low digits at
positions 1..8, whatever the sign. -/
theorem sendNumber_eight_calls (s : Driver) (n : Int)
    (hlo : -2147483648 ≤ n) (hhi : n < 2147483648) (hbig : 10 ^ 7 ≤ n.natAbs) :
    sendNumber s n
      = sendDigits s ((List.range 8).map (fun j => (1 + j, n.natAbs / 10 ^ j % 10, false))) := by
  by_cases hsmall : n.natAbs < 10 ^ 8
  · rw [sendNumber_calls s n 8 (by omega) (by omega) (by norm_num) hsmall (Or.inr hbig)]
    simp
  · have hnum := sendNumber_number n hlo hhi
    have hge : 10 ^ 8 ≤ n.natAbs := by omega
    have hne : n.natAbs ≠ 0 := by omega
    unfold sendNumber
    simp only [hnum, hne, if_false]
    rw [sendNumberLoop_full 8 s 1 n.natAbs 1 (by norm_num) hge]
    have : ¬ (n < 0 ∧ 1 + 8 < 8) := by omega
    simp only [this, if_false]

/-- C17: for an int32 `n` with `|n| ≥ 10^7` (with `|INT32_MIN| = 2^31`), the
digit-register words of `sendNumber(n)` are exactly eight, at positions 1..8 in
ascending order, the one at position `i` carrying `|n| / 10^(i-1) mod 10`, and
none of them is a dash, also for negative `n`.  `sendNumber(12345678)` sends
`8, 7, 6, 5, 4, 3, 2, 1` at positions 1..8. -/
theorem sendNumber_eight_digits (s : Driver) (n : Int)
    (hlo : -2147483648 ≤ n) (hhi : n < 2147483648) (hbig : 10 ^ 7 ≤ n.natAbs) :
    digitWords (emitted s (sendNumber s n))
        = (List.range 8).map (fun j => 256 * (1 + j) + n.natAbs / 10 ^ j % 10)
      ∧ (∀ w ∈ digitWords (emitted s (sendNumber s n)), dataOf w ≠ 0x0A)
      ∧ digitWords (emitted ⟨0xFF, []⟩ (sendNumber ⟨0xFF, []⟩ 12345678))
        = [0x0108, 0x0207, 0x0306, 0x0405, 0x0504, 0x0603, 0x0702, 0x0801] := by
  have hwords : ∀ (s' : Driver) (m : Int), -2147483648 ≤ m → m < 2147483648 →
      10 ^ 7 ≤ m.natAbs →
      digitWords (emitted s' (sendNumber s' m))
        = (List.range 8).map (fun j => 256 * (1 + j) + m.natAbs / 10 ^ j % 10) := by
    intro s' m hmlo hmhi hmbig
    rw [sendNumber_eight_calls s' m hmlo hmhi hmbig]
    have hvalid : ∀ c ∈ (List.range 8).map (fun j => (1 + j, m.natAbs / 10 ^ j % 10, false)),
        1 ≤ c.1 ∧ c.1 ≤ 8 ∧ c.2.1 < 256 := by
      intro c hc
      rw [List.mem_map] at hc
      obtain ⟨j, hj, rfl⟩ := hc
      rw [List.mem_range] at hj
      exact ⟨by simp only; omega, by simp only; omega, by simp only; omega⟩
    obtain ⟨ws, hws, hdw, -, -⟩ := sendDigits_spec _ hvalid s'
    rw [emitted_append s' _ ws hws, hdw, List.map_map]
    apply List.map_congr_left
    intro j _
    simp [callWord]
  refine ⟨hwords s n hlo hhi hbig, ?_, ?_⟩
  · intro w hw
    rw [hwords s n hlo hhi hbig, List.mem_map] at hw
    obtain ⟨j, -, rfl⟩ := hw
    rw [dataOf_digit _ _ (by omega)]
    omega
  · rw [hwords ⟨0xFF, []⟩ 12345678 (by decide) (by decide) (by decide)]
    decide

/-- Witness for C17: `n = INT32_MIN`. -/
theorem sendNumber_eight_digits_witness :
    digitWords (emitted ⟨0xFF, []⟩ (sendNumber ⟨0xFF, []⟩ (-2147483648)))
        = (List.range 8).map (fun j => 256 * (1 + j) + (-2147483648 : Int).natAbs / 10 ^ j % 10)
      ∧ (∀ w ∈ digitWords (emitted ⟨0xFF, []⟩ (sendNumber ⟨0xFF, []⟩ (-2147483648))),
          dataOf w ≠ 0x0A)
      ∧ digitWords (emitted ⟨0xFF, []⟩ (sendNumber ⟨0xFF, []⟩ 12345678))
        = [0x0108, 0x0207, 0x0306, 0x0405, 0x0504, 0x0603, 0x0702, 0x0801] :=
  sendNumber_eight_digits ⟨0xFF, []⟩ (-2147483648) (by decide) (by decide) (by decide)

/-! ## The invariant of the reachable states -/

theorem lastDecode_snoc_other (ws : List Nat) (w : Nat) (h : regAddr w ≠ 9) :
    lastDecode (ws ++ [w]) = lastDecode ws := by
  simp [lastDecode, List.reverse_append, List.find?_cons, h]

theorem lastDecode_snoc_decode (ws : List Nat) (w : Nat) (h : regAddr w = 9) :
    lastDecode (ws ++ [w]) = some (dataOf w) := by
  simp [lastDecode, List.reverse_append, List.find?_cons, h]

theorem regAddr_digit (p d : Nat) (h8 : p ≤ 8) (hd : d < 256) : regAddr (256 * p + d) ≠ 9 := by
  simp only [regAddr]; omega

theorem regAddr_decode (x : Nat) (hx : x < 256) : regAddr (2304 + x) = 9 := by
  simp only [regAddr]; omega

/-- Sending a word that is not a decode-mode word keeps the invariant. -/
theorem mirrored_snoc_other (s : Driver) (w : Nat) (hs : Mirrored s) (h : regAddr w ≠ 9) :
    Mirrored { s with wire := s.wire ++ [w] } := by
  obtain ⟨hodd, hlt, hlast, hall⟩ := hs
  refine ⟨hodd, hlt, ?_, ?_⟩
  · simp only; rw [lastDecode_snoc_other _ _ h]; exact hlast
  · intro w' hw'
    simp only [List.mem_append, List.mem_singleton] at hw'
    rcases hw' with hw' | hw'
    · exact hall w' hw'
    · intro h9; rw [hw'] at h9; exact absurd h9 h

/-- Storing a new odd mask and sending it in a decode-mode word, followed by a
digit word, gives a state with the invariant. -/
theorem mirrored_decode_digit (s : Driver) (m' w : Nat) (hs : Mirrored s)
    (hodd' : m' % 2 = 1) (hlt' : m' < 256) (h : regAddr w ≠ 9) :
    Mirrored { m_digitCoding := m', wire := s.wire ++ [2304 + m', w] } := by
  obtain ⟨-, -, -, hall⟩ := hs
  refine ⟨hodd', hlt', ?_, ?_⟩
  · have : s.wire ++ [2304 + m', w] = (s.wire ++ [2304 + m']) ++ [w] := by simp
    simp only
    rw [this, lastDecode_snoc_other _ _ h, lastDecode_snoc_decode _ _ (regAddr_decode m' hlt'),
      dataOf_decode m' hlt']
  · intro w' hw'
    simp only [List.mem_append, List.mem_cons, List.mem_singleton, List.not_mem_nil,
      or_false] at hw'
    rcases hw' with hw' | hw' | hw'
    · exact hall w' hw'
    · intro _; rw [hw', dataOf_decode m' hlt']; exact hodd'
    · intro h9; rw [hw'] at h9; exact absurd h9 h

/-- A `sendDigit` call at a position in 1..8 keeps the invariant. -/
theorem mirrored_sendDigit (s : Driver) (p v : Nat) (dot : Bool) (hs : Mirrored s)
    (h1 : 1 ≤ p) (h8 : p ≤ 8) (hv : v < 256) : Mirrored (sendDigit s p v dot) := by
  have hev := numToBitMask_even p h1 h8
  have hodd := hs.1
  rw [sendDigit_eq s p v dot h8 hv]
  have hdw : ∀ d, d < 256 → regAddr (256 * p + d) ≠ 9 := fun d hd => regAddr_digit p d h8 hd
  by_cases hv15 : v ≤ 15
  · have hd : (if dot = true then 128 + v else v) < 256 := by split <;> omega
    by_cases hb : isBcdSet s p = true
    · simp only [hv15, hb, if_true]
      exact mirrored_snoc_other s _ hs (hdw _ hd)
    · simp only [hv15, hb, if_true, if_false]
      apply mirrored_decode_digit s _ _ hs _ (Nat.mod_lt _ (by norm_num)) (hdw _ hd)
      rw [Nat.mod_mod_of_dvd _ (by norm_num)]
      simp [hodd]
  · by_cases hb : isBcdSet s p = true
    · simp only [hv15, hb, if_true, if_false]
      apply mirrored_decode_digit s _ _ hs _ (Nat.mod_lt _ (by norm_num)) (hdw _ hv)
      rw [Nat.mod_mod_of_dvd _ (by norm_num)]
      simp [hodd, hev]
      omega
    · simp only [hv15, hb, if_false]
      exact mirrored_snoc_other s _ hs (hdw _ hv)

/-- A run of `sendDigit` calls at positions in 1..8 keeps the invariant. -/
theorem mirrored_sendDigits (calls : List (Nat × Nat × Bool))
    (hvalid : ∀ c ∈ calls, 1 ≤ c.1 ∧ c.1 ≤ 8 ∧ c.2.1 < 256) (s : Driver) (hs : Mirrored s) :
    Mirrored (sendDigits s calls) := by
  induction calls generalizing s with
  | nil => exact hs
  | cons c rest ih =>
    obtain ⟨hc1, hc8, hcv⟩ := hvalid c (List.mem_cons_self _ _)
    exact ih (fun c' hc' => hvalid c' (List.mem_cons_of_mem _ hc')) _
      (mirrored_sendDigit s c.1 c.2.1 c.2.2 hs hc1 hc8 hcv)

/-- Sending one word whose register address is not `0x9` keeps the invariant. -/
theorem mirrored_emit (s : Driver) (w : Nat) (hs : Mirrored s) (h : regAddr (w % 65536) ≠ 9) :
    Mirrored (emit s w) :=
  mirrored_snoc_other s _ hs h

/-- The loop of `clear` written out: `sendDigit(i, 0x0F)` for `i = 1..8`. -/
theorem clear_run (s : Driver) :
    clear s = sendDigits s [(1, 0x0F, false), (2, 0x0F, false), (3, 0x0F, false),
      (4, 0x0F, false), (5, 0x0F, false), (6, 0x0F, false), (7, 0x0F, false),
      (8, 0x0F, false)] := by
  simp [clear, clearLoop, sendDigits]

/-- The loop of `fillWithZeros` written out: `sendDigit(i, 0)` for `i = 1..8`. -/
theorem fillWithZeros_run (s : Driver) :
    fillWithZeros s = sendDigits s [(1, 0, false), (2, 0, false), (3, 0, false),
      (4, 0, false), (5, 0, false), (6, 0, false), (7, 0, false), (8, 0, false)] := by
  simp [fillWithZeros, fillWithZerosLoop, sendDigits]

/-- For every int32 `n`, `sendNumber(n)` is a run of `sendDigit` calls at
positions in 1..8. -/
theorem sendNumber_run (s : Driver) (n : Int)
    (hlo : -2147483648 ≤ n) (hhi : n < 2147483648) :
    ∃ calls, sendNumber s n = sendDigits s calls
      ∧ ∀ c ∈ calls, 1 ≤ c.1 ∧ c.1 ≤ 8 ∧ c.2.1 < 256 := by
  have hmem : ∀ (a r : Nat), r ≤ 8 →
      ∀ c ∈ (List.range r).map (fun j => (1 + j, a / 10 ^ j % 10, false)),
        1 ≤ c.1 ∧ c.1 ≤ 8 ∧ c.2.1 < 256 := by
    intro a r hr c hc
    rw [List.mem_map] at hc
    obtain ⟨j, hj, rfl⟩ := hc
    rw [List.mem_range] at hj
    exact ⟨by simp only; omega, by simp only; omega, by simp only; omega⟩
  by_cases hsmall : n.natAbs < 10 ^ 8
  · obtain ⟨k, hk1, hk, hk'⟩ := exists_digit_count n.natAbs hsmall
    have hk8 : k ≤ 8 := by
      rcases hk' with h | h
      · omega
      · have := pow_le_lt_imp (k - 1) _ h hsmall
        omega
    refine ⟨_, sendNumber_calls s n k (by omega) (by omega) hk1 hk hk', ?_⟩
    intro c hc
    rw [List.mem_append] at hc
    rcases hc with hc | hc
    · exact hmem n.natAbs k hk8 c hc
    · split at hc
      · next h =>
        simp only [List.mem_singleton] at hc
        subst hc
        exact ⟨by simp only; omega, by simp only; omega, by norm_num⟩
      · simp at hc
  · exact ⟨_, sendNumber_eight_calls s n hlo hhi (by omega), hmem n.natAbs 8 (le_refl _)⟩

/-- For every sign, integer part, scaled fraction and precision, the decimal
encoder is a run of `sendDigit` calls at positions in 1..8. -/
theorem sendNumberDouble_run (s : Driver) (negative : Bool) (N F p : Nat) :
    ∃ calls, sendNumberDouble s negative N F p = sendDigits s calls
      ∧ ∀ c ∈ calls, 1 ≤ c.1 ∧ c.1 ≤ 8 ∧ c.2.1 < 256 := by
  by_cases hp : p ≤ 7
  · obtain ⟨tf, ti, sign, htf, hti, hsign, -, hrun⟩ := sendNumberDouble_low s negative N F p hp
    refine ⟨_, hrun, ?_⟩
    intro c hc
    simp only [List.mem_append, List.mem_map, List.mem_range, List.mem_singleton] at hc
    rcases hc with ((⟨j, hj, rfl⟩ | rfl) | ⟨j, hj, rfl⟩) | hc
    · exact ⟨by simp only; omega, by simp only; omega, by simp only; omega⟩
    · exact ⟨by simp only; omega, by simp only; omega, by simp only; omega⟩
    · exact ⟨by simp only; omega, by simp only; omega, by simp only; omega⟩
    · rcases hsign with h | ⟨q, hq1, hq8, h⟩
      · rw [h] at hc; simp at hc
      · rw [h] at hc
        simp only [List.mem_singleton] at hc
        subst hc
        exact ⟨hq1, hq8, by norm_num⟩
  · obtain ⟨t, ht8, hrun⟩ := sendNumberDouble_high s negative N F p (by omega)
    refine ⟨_, hrun, ?_⟩
    intro c hc
    rw [List.mem_map] at hc
    obtain ⟨j, hj, rfl⟩ := hc
    rw [List.mem_range] at hj
    exact ⟨by simp only; omega, by simp only; omega, by simp only; omega⟩

theorem regAddr_scanLimit (x : Nat) (hx : x < 256) :
    regAddr ((0x0B00 ||| ((x + 65535) % 65536)) % 65536) ≠ 9 := by
  by_cases h0 : x = 0
  · subst h0; decide
  · have hy : (x + 65535) % 65536 = x - 1 := by omega
    have hl : 0x0B00 ||| (x - 1) = 2816 + (x - 1) := by
      have := lor_byte 11 (x - 1) (by omega)
      simpa using this
    rw [hy, hl]
    simp only [regAddr]; omega

theorem mirrored_clear (s : Driver) (hs : Mirrored s) : Mirrored (clear s) := by
  rw [clear_run]
  apply mirrored_sendDigits _ _ s hs
  intro c hc
  simp only [List.mem_cons, List.mem_singleton, List.not_mem_nil, or_false] at hc
  rcases hc with h | h | h | h | h | h | h | h <;> subst h <;> decide

theorem mirrored_fillWithZeros (s : Driver) (hs : Mirrored s) : Mirrored (fillWithZeros s) := by
  rw [fillWithZeros_run]
  apply mirrored_sendDigits _ _ s hs
  intro c hc
  simp only [List.mem_cons, List.mem_singleton, List.not_mem_nil, or_false] at hc
  rcases hc with h | h | h | h | h | h | h | h <;> subst h <;> decide

theorem mirrored_setShutdown (s : Driver) (b : Bool) (hs : Mirrored s) :
    Mirrored (setShutdown s b) := by
  apply mirrored_emit s _ hs
  cases b <;> decide

theorem mirrored_setDisplayTest (s : Driver) (b : Bool) (hs : Mirrored s) :
    Mirrored (setDisplayTest s b) := by
  apply mirrored_emit s _ hs
  cases b <;> decide

theorem mirrored_setIntensity (s : Driver) (x : Nat) (hx : x ≤ 255) (hs : Mirrored s) :
    Mirrored (setIntensity s x) := by
  rw [setIntensity_wire s x hx]
  apply mirrored_snoc_other s _ hs
  simp only [regAddr]; omega

theorem mirrored_setScanLimit (s : Driver) (x : Nat) (hx : x ≤ 255) (hs : Mirrored s) :
    Mirrored (setScanLimit s x) := by
  apply mirrored_emit s _ hs
  exact regAddr_scanLimit x (by omega)

theorem mirrored_sendNop (s : Driver) (d : Nat) (hd : d ≤ 255) (hs : Mirrored s) :
    Mirrored (sendNop s d) := by
  apply mirrored_emit s _ hs
  simp only [regAddr]; omega

/-- The constructor ends in a state with the invariant, for every scan limit
and intensity byte. -/
theorem mirrored_construct (scanLimit intensity : Nat)
    (hsl : scanLimit ≤ 255) (hint : intensity ≤ 255) :
    Mirrored (construct scanLimit intensity) := by
  unfold construct
  apply mirrored_setShutdown
  apply mirrored_clear
  rw [setIntensity_wire _ intensity hint]
  have hw1 := regAddr_scanLimit scanLimit (by omega)
  have hw2 : regAddr (2560 + intensity / 16) ≠ 9 := by simp only [regAddr]; omega
  simp only [setBcdDecodeMode, setScanLimit, emit, List.nil_append, List.cons_append]
  refine ⟨by simp only; decide, by simp only; decide, ?_, ?_⟩
  · have : [(2816 ||| (scanLimit + 65535) % 65536) % 65536, 2560 + intensity / 16,
        (2304 ||| (255 ||| 255) % 256) % 65536]
        = [(2816 ||| (scanLimit + 65535) % 65536) % 65536, 2560 + intensity / 16] ++ [2559] := by
      simp
    simp only
    rw [this, lastDecode_snoc_decode _ _ (by decide)]
    decide
  · intro w hw
    simp only [List.mem_cons, List.mem_singleton, List.not_mem_nil, or_false] at hw
    rcases hw with hw | hw | hw
    · intro h9; rw [hw] at h9; exact absurd h9 hw1
    · intro h9; rw [hw] at h9; exact absurd h9 hw2
    · intro _; rw [hw]; decide

/-- Every state reachable through the public interface has the invariant. -/
theorem reachable_mirrored (s : Driver) (h : Reachable s) : Mirrored s := by
  induction h with
  | construct sl int hsl hint => exact mirrored_construct sl int hsl hint
  | sendDigit s p v dot _ h1 h8 hv ih => exact mirrored_sendDigit s p v dot ih h1 h8 (by omega)
  | sendChar s p c dot _ h1 h8 hc1 hc2 ih =>
    exact mirrored_sendDigit s p (c % 256) dot ih h1 h8 (Nat.mod_lt _ (by norm_num))
  | sendNumber s n _ hlo hhi ih =>
    obtain ⟨calls, hrun, hvalid⟩ := sendNumber_run s n hlo hhi
    rw [hrun]; exact mirrored_sendDigits calls hvalid s ih
  | sendNumberDouble s neg N F p _ _ _ _ ih =>
    obtain ⟨calls, hrun, hvalid⟩ := sendNumberDouble_run s neg N F p
    rw [hrun]; exact mirrored_sendDigits calls hvalid s ih
  | setIntensity s x _ hx ih => exact mirrored_setIntensity s x hx ih
  | setScanLimit s x _ hx ih => exact mirrored_setScanLimit s x hx ih
  | setShutdown s b _ ih => exact mirrored_setShutdown s b ih
  | setDisplayTest s b _ ih => exact mirrored_setDisplayTest s b ih
  | sendNop s d _ hd ih => exact mirrored_sendNop s d hd ih
  | clear s _ ih => exact mirrored_clear s ih
  | fillWithZeros s _ ih => exact mirrored_fillWithZeros s ih

theorem lor_two_pow_of_and_ne_zero (m p : Nat) (h : m &&& 2 ^ p ≠ 0) : m ||| 2 ^ p = m := by
  have hbit : m.testBit p = true := by
    rw [Nat.and_two_pow] at h
    cases hb : m.testBit p
    · rw [hb] at h; simp at h
    · rfl
  apply Nat.eq_of_testBit_eq
  intro i
  rw [Nat.testBit_or, Nat.testBit_two_pow]
  by_cases hpi : p = i
  · subst hpi; simp [hbit]
  · simp [hpi]

set_option maxRecDepth 100000 in
theorem lor_all_digits : ∀ m, m < 256 → m % 2 = 1 →
    m ||| 2 ||| 4 ||| 8 ||| 16 ||| 32 ||| 64 ||| 128 ||| 0 = 255 := by
  decide

/-- Stored mask after `sendDigit` with a BCD value: the bit mask of the digit
is or-ed in. -/
theorem sendDigit_bcd_mask (s : Driver) (p v : Nat) (dot : Bool)
    (hm : s.m_digitCoding < 256) (h1 : 1 ≤ p) (h8 : p ≤ 8) (hv : v ≤ 15) :
    (sendDigit s p v dot).m_digitCoding = s.m_digitCoding ||| numToBitMask p
      ∧ (sendDigit s p v dot).m_digitCoding < 256 := by
  have hnb := numToBitMask_digit p h1 h8
  have hnb256 : numToBitMask p < 256 := by
    interval_cases p <;> decide
  have hlor : s.m_digitCoding ||| numToBitMask p < 2 ^ 8 :=
    Nat.or_lt_two_pow (by simpa using hm) (by simpa using hnb256)
  rw [sendDigit_eq s p v dot h8 (by omega)]
  by_cases hb : isBcdSet s p = true
  · simp only [hv, hb, if_true]
    refine ⟨?_, hm⟩
    have hp : p % 256 = p := Nat.mod_eq_of_lt (by omega)
    simp only [isBcdSet, hp, decide_eq_true_eq] at hb
    by_cases hp8 : p = 8
    · subst hp8
      rw [hnb] at hb
      simp at hb
    · simp only [hnb, hp8, if_false] at hb ⊢
      exact (lor_two_pow_of_and_ne_zero _ _ hb).symm
  · simp only [hv, hb, if_true, if_false]
    have : (s.m_digitCoding ||| numToBitMask p) % 256 = s.m_digitCoding ||| numToBitMask p :=
      Nat.mod_eq_of_lt (by simpa using hlor)
    rw [this]
    exact ⟨rfl, by simpa using hlor⟩

/-- Stored mask after a run of `sendDigit` calls with BCD values. -/
theorem sendDigits_bcd_mask (calls : List (Nat × Nat × Bool))
    (hvalid : ∀ c ∈ calls, 1 ≤ c.1 ∧ c.1 ≤ 8 ∧ c.2.1 ≤ 15) (s : Driver)
    (hm : s.m_digitCoding < 256) :
    (sendDigits s calls).m_digitCoding
      = calls.foldl (fun a c => a ||| numToBitMask c.1) s.m_digitCoding := by
  induction calls generalizing s with
  | nil => rfl
  | cons c rest ih =>
    obtain ⟨hc1, hc8, hcv⟩ := hvalid c (List.mem_cons_self _ _)
    obtain ⟨hmask, hlt⟩ := sendDigit_bcd_mask s c.1 c.2.1 c.2.2 hm hc1 hc8 hcv
    simp only [sendDigits, List.foldl_cons]
    rw [ih (fun c' hc' => hvalid c' (List.mem_cons_of_mem _ hc')) _ hlt, hmask]

/-- C18: from every state reachable from construction by public operations,
`clear()` sends a digit word with data `0x0F` for each position 1..8 in
ascending order and leaves the stored decode mask at `0xFF`; `fillWithZeros()`
sends data `0x00` at each position 1..8 in ascending order and leaves the mask
at `0xFF`. -/
theorem clear_fill_from_reachable (s : Driver) (h : Reachable s) :
    digitWords (emitted s (clear s))
        = [0x010F, 0x020F, 0x030F, 0x040F, 0x050F, 0x060F, 0x070F, 0x080F]
      ∧ (clear s).m_digitCoding = 0xFF
      ∧ digitWords (emitted s (fillWithZeros s))
        = [0x0100, 0x0200, 0x0300, 0x0400, 0x0500, 0x0600, 0x0700, 0x0800]
      ∧ (fillWithZeros s).m_digitCoding = 0xFF := by
  obtain ⟨hodd, hlt, -, -⟩ := reachable_mirrored s h
  have hrun : ∀ (v : Nat), v ≤ 15 →
      digitWords (emitted s (sendDigits s [(1, v, false), (2, v, false), (3, v, false),
          (4, v, false), (5, v, false), (6, v, false), (7, v, false), (8, v, false)]))
        = [256 * 1 + v, 256 * 2 + v, 256 * 3 + v, 256 * 4 + v, 256 * 5 + v, 256 * 6 + v,
            256 * 7 + v, 256 * 8 + v]
      ∧ (sendDigits s [(1, v, false), (2, v, false), (3, v, false),
          (4, v, false), (5, v, false), (6, v, false), (7, v, false),
          (8, v, false)]).m_digitCoding = 0xFF := by
    intro v hv
    have hvalid : ∀ c ∈ [(1, v, false), (2, v, false), (3, v, false), (4, v, false),
        (5, v, false), (6, v, false), (7, v, false), ((8 : Nat), v, false)],
        1 ≤ c.1 ∧ c.1 ≤ 8 ∧ c.2.1 ≤ 15 := by
      intro c hc
      simp only [List.mem_cons, List.mem_singleton, List.not_mem_nil, or_false] at hc
      rcases hc with h | h | h | h | h | h | h | h <;> subst h <;>
        exact ⟨by norm_num, by norm_num, hv⟩
    obtain ⟨ws, hws, hdw, -, -⟩ := sendDigits_spec _
      (fun c hc => by have := hvalid c hc; omega) s
    refine ⟨?_, ?_⟩
    · rw [emitted_append s _ ws hws, hdw]
      simp [callWord]
    · rw [sendDigits_bcd_mask _ hvalid s hlt]
      simp only [List.foldl_cons, List.foldl_nil]
      rw [numToBitMask_digit 1 (by norm_num) (by norm_num),
        numToBitMask_digit 2 (by norm_num) (by norm_num),
        numToBitMask_digit 3 (by norm_num) (by norm_num),
        numToBitMask_digit 4 (by norm_num) (by norm_num),
        numToBitMask_digit 5 (by norm_num) (by norm_num),
        numToBitMask_digit 6 (by norm_num) (by norm_num),
        numToBitMask_digit 7 (by norm_num) (by norm_num),
        numToBitMask_digit 8 (by norm_num) (by norm_num)]
      norm_num
      have hall := lor_all_digits _ hlt hodd
      simpa using hall
  obtain ⟨hc1, hc2⟩ := hrun 0x0F (by norm_num)
  obtain ⟨hf1, hf2⟩ := hrun 0 (by norm_num)
  rw [clear_run, fillWithZeros_run]
  exact ⟨hc1, hc2, hf1, hf2⟩

/-- Witness for C18: the state after the constructor and a raw write to digit 3. -/
theorem clear_fill_from_reachable_witness :
    digitWords (emitted (sendDigit (construct 8 0xFF) 3 0x4E false)
          (clear (sendDigit (construct 8 0xFF) 3 0x4E false)))
        = [0x010F, 0x020F, 0x030F, 0x040F, 0x050F, 0x060F, 0x070F, 0x080F]
      ∧ (clear (sendDigit (construct 8 0xFF) 3 0x4E false)).m_digitCoding = 0xFF
      ∧ digitWords (emitted (sendDigit (construct 8 0xFF) 3 0x4E false)
          (fillWithZeros (sendDigit (construct 8 0xFF) 3 0x4E false)))
        = [0x0100, 0x0200, 0x0300, 0x0400, 0x0500, 0x0600, 0x0700, 0x0800]
      ∧ (fillWithZeros (sendDigit (construct 8 0xFF) 3 0x4E false)).m_digitCoding = 0xFF :=
  clear_fill_from_reachable _
    (Reachable.sendDigit _ 3 0x4E false (Reachable.construct 8 0xFF (by decide) (by decide))
      (by decide) (by decide) (by decide))

/-- C19: in every state reachable from construction by the public operations
with digit positions in 1..8, the data byte of the most recently sent word
whose register address (bits 8..11) is `0x9` equals the stored decode mask
`m_digitCoding`. -/
theorem decode_register_mirrors_mask (s : Driver) (h : Reachable s) :
    lastDecode s.wire = some s.m_digitCoding :=
  (reachable_mirrored s h).2.2.1

/-- Witness for C19: constructor with scan limit 0, a raw write to digit 3, then
`sendNumber(-45)`. -/
theorem decode_register_mirrors_mask_witness :
    lastDecode (sendNumber (sendDigit (construct 0 0xFF) 3 0x4E false) (-45)).wire
      = some (sendNumber (sendDigit (construct 0 0xFF) 3 0x4E false) (-45)).m_digitCoding :=
  decode_register_mirrors_mask _
    (Reachable.sendNumber _ (-45)
      (Reachable.sendDigit _ 3 0x4E false (Reachable.construct 0 0xFF (by decide) (by decide))
        (by decide) (by decide) (by decide))
      (by decide) (by decide))

/-- C20: in every state reachable from construction by the public operations
with digit positions in 1..8, bit 0 of the stored decode mask is 1 and every
decode-mode word sent so far has bit 0 of its data set; `numToBitMask(p)` has
bit 0 clear for every `p` in 1..8, and `numToBitMask(8) = 0`. -/
theorem mask_bit0_stays_set (s : Driver) (h : Reachable s) :
    s.m_digitCoding % 2 = 1
      ∧ (∀ w ∈ s.wire, regAddr w = 9 → dataOf w % 2 = 1)
      ∧ (∀ p, 1 ≤ p → p ≤ 8 → numToBitMask p % 2 = 0)
      ∧ numToBitMask 8 = 0 := by
  obtain ⟨hodd, -, -, hall⟩ := reachable_mirrored s h
  exact ⟨hodd, hall, numToBitMask_even, by decide⟩

/-- Witness for C20: constructor, then raw writes to digits 1 and 8. -/
theorem mask_bit0_stays_set_witness :
    (sendDigit (sendDigit (construct 8 0xFF) 1 0x4E false) 8 0x4E false).m_digitCoding % 2 = 1
      ∧ (∀ w ∈ (sendDigit (sendDigit (construct 8 0xFF) 1 0x4E false) 8 0x4E false).wire,
          regAddr w = 9 → dataOf w % 2 = 1)
      ∧ (∀ p, 1 ≤ p → p ≤ 8 → numToBitMask p % 2 = 0)
      ∧ numToBitMask 8 = 0 :=
  mask_bit0_stays_set _
    (Reachable.sendDigit _ 8 0x4E false
      (Reachable.sendDigit _ 1 0x4E false (Reachable.construct 8 0xFF (by decide) (by decide))
        (by decide) (by decide) (by decide))
      (by decide) (by decide) (by decide))
end MAX7219
